import Mathlib

/-!
Shallow embedding of the block lifecycle / consensus engine of
`src/server/controllers/blockController.js` (the second, current revision in
that file, which exports `getWaitingBlock` and `validateBlockchain`), together
with the parts of `authController.js` it depends on (user registration).

Hash idealization: the source hashes a concatenated string with SHA-256 and
serializes the record batch with `JSON.stringify`.  Both are modelled as
parameters `H : String → String` (the hash) and `J : List TxRecord → String`
(the serializer); theorems that depend on collision-freeness assume the
standard idealization `Function.Injective H` (and `Function.Injective J`).
-/

namespace BlockSpec

/-! ### Decimal string conversion, modelling JavaScript `Number.prototype.toString()` -/

/-- The character of a single decimal digit (`0 ≤ d ≤ 9` maps to `'0'..'9'`). -/
def decDigit (d : Nat) : Char := Char.ofNat (48 + d)

/-- Fuel-driven most-significant-first decimal digit list of `n`; correct whenever
`n ≤ fuel`, structural in the fuel so the kernel can evaluate it. -/
def natToDecAux : Nat → Nat → List Char
  | 0, _ => []
  | fuel + 1, n => if n = 0 then [] else natToDecAux fuel (n / 10) ++ [decDigit (n % 10)]

/-- Models `blockId.toString()` from `computeBlockHash`: decimal representation of
a natural number, `"0"` for zero. -/
def natToDec (n : Nat) : String := if n = 0 then "0" else String.mk (natToDecAux n n)

/-- Numeric value of a decimal digit character. -/
def decVal (c : Char) : Nat := c.toNat - 48

/-- Decode a most-significant-first decimal digit list. -/
def decodeDec (l : List Char) : Nat := l.foldl (fun acc c => acc * 10 + decVal c) 0

theorem decVal_decDigit : ∀ d, d < 10 → decVal (decDigit d) = d := by decide

theorem decodeDec_append_digit (l : List Char) (c : Char) :
    decodeDec (l ++ [c]) = decodeDec l * 10 + decVal c := by
  simp [decodeDec, List.foldl_append]

theorem decodeDec_natToDecAux : ∀ fuel n, n ≤ fuel → decodeDec (natToDecAux fuel n) = n := by
  intro fuel
  induction fuel with
  | zero => intro n hn; interval_cases n; rfl
  | succ fuel ih =>
    intro n hn
    by_cases h0 : n = 0
    · subst h0; simp [natToDecAux, decodeDec]
    · have hdiv : n / 10 ≤ fuel := by
        have : n / 10 < n := Nat.div_lt_self (Nat.pos_of_ne_zero h0) (by decide)
        omega
      have hmod : n % 10 < 10 := Nat.mod_lt _ (by decide)
      simp only [natToDecAux, if_neg h0]
      rw [decodeDec_append_digit, ih _ hdiv, decVal_decDigit _ hmod]
      omega

theorem natToDec_injective : Function.Injective natToDec := by
  intro m n h
  unfold natToDec at h
  by_cases hm : m = 0 <;> by_cases hn : n = 0
  · omega
  · exfalso
    rw [if_pos hm, if_neg hn] at h
    have hdata : ("0" : String).data = (String.mk (natToDecAux n n)).data := by rw [h]
    have : decodeDec (natToDecAux n n) = n := decodeDec_natToDecAux n n le_rfl
    have h0 : natToDecAux n n = [Char.ofNat 48] := hdata.symm
    rw [h0] at this
    have : (0 : Nat) = n := by simpa [decodeDec, decVal] using this
    omega
  · exfalso
    rw [if_neg hm, if_pos hn] at h
    have hdata : (String.mk (natToDecAux m m)).data = ("0" : String).data := by rw [h]
    have : decodeDec (natToDecAux m m) = m := decodeDec_natToDecAux m m le_rfl
    have h0 : natToDecAux m m = [Char.ofNat 48] := hdata
    rw [h0] at this
    have : (0 : Nat) = m := by simpa [decodeDec, decVal] using this
    omega
  · rw [if_neg hm, if_neg hn] at h
    have hdata : natToDecAux m m = natToDecAux n n := congrArg String.data h
    have h1 := decodeDec_natToDecAux m m le_rfl
    have h2 := decodeDec_natToDecAux n n le_rfl
    rw [hdata, h2] at h1
    exact h1.symm

/-! ### Record model

The concrete record schema (`models/transaction`, `models/supplychain`,
`models/approvedRecord`) and `checkTransactionValidity` from
`transactionController.js` are not part of the sources; their shape is
modelled from the spec (§3, §4.5): a record has an identity, opaque payload,
an optional `amount` field that may hold loosely-typed data, and a status. -/

/-- A loosely-typed JSON field value, as stored in a schemaless document field. -/
inductive JsVal where
  | num (n : Int)
  | str (s : String)
  | nullv
deriving DecidableEq

/-- Record lifecycle status (spec §3). -/
inductive RecStatus where
  | created
  | approved
  | inBlock
  | inChain
  | rejected
deriving DecidableEq

/-- Modelled from the spec: a record snapshot (spec §3 "identity, payload
fields (e.g. amount, parties), status"); `amount = none` models the field
being absent from the document. -/
structure TxRecord where
  recordId : Nat
  payload : String
  amount : Option JsVal
  status : RecStatus
deriving DecidableEq

/-- Models the JavaScript `"amount" in record` field-presence test. -/
def recordHasAmount (r : TxRecord) : Bool := r.amount.isSome

/-- Modelled from the spec: `checkTransactionValidity` is defined in
`transactionController.js`, which is absent from the sources; the spec (§4.5)
says monetary records require a present, well-typed amount field. -/
def checkTransactionValidity (r : TxRecord) : Bool :=
  match r.amount with
  | some (JsVal.num _) => true
  | _ => false

/-- Embeds `validateBlockRecords(records)`: for each record, when the `amount`
field is present the record must pass `checkTransactionValidity`; returns
false at the first failing record. -/
def validateBlockRecords : List TxRecord → Bool
  | [] => true
  | r :: rest =>
    if recordHasAmount r && !checkTransactionValidity r then false
    else validateBlockRecords rest

/-! ### Blocks and the block hash -/

/-- Block lifecycle status (spec §3). -/
inductive BStatus where
  | hibernating
  | pending
  | approved
  | rejected
  | inChain
deriving DecidableEq

/-- A block document.  `docId` models the MongoDB `_id`; `blockId` is the
sequence number. -/
structure Block where
  docId : Nat
  blockId : Nat
  prevHash : String
  hash : String
  timestamp : String
  status : BStatus
  records : List TxRecord
  approvedBy : List String
  rejectedBy : List String
deriving DecidableEq

/-- Embeds `computeBlockHash(blockId, prevHash, timestamp, record)`:
SHA-256 (idealized as `H`) of
`blockId.toString() + prevHash + timestamp + JSON.stringify(record)`
(the serializer idealized as `J`). -/
def computeBlockHash (H : String → String) (J : List TxRecord → String)
    (blockId : Nat) (prevHash timestamp : String) (records : List TxRecord) : String :=
  H (natToDec blockId ++ prevHash ++ timestamp ++ J records)

/-- Embeds the `i > 0` arm of the loop body of `validateBlocks(blocks)`:
recomputed hash must match the stored hash, the stored `prevHash` must match
the previous block's stored hash, and the embedded records must validate;
short-circuits to false at the first violation. -/
def validateBlocksRest (H : String → String) (J : List TxRecord → String) :
    Block → List Block → Bool
  | _, [] => true
  | prev, b :: rest =>
    if b.hash ≠ computeBlockHash H J b.blockId b.prevHash b.timestamp b.records then false
    else if b.prevHash ≠ prev.hash then false
    else if !validateBlockRecords b.records then false
    else validateBlocksRest H J b rest

/-- Embeds `validateBlocks(blocks)`: the genesis block (index 0) must have a
matching recomputed hash, empty `prevHash` and valid records; later blocks are
checked by `validateBlocksRest`.  Pure, hence read-only and deterministic. -/
def validateBlocks (H : String → String) (J : List TxRecord → String) :
    List Block → Bool
  | [] => true
  | g :: rest =>
    if g.hash ≠ computeBlockHash H J g.blockId g.prevHash g.timestamp g.records then false
    else if g.prevHash ≠ "" then false
    else if !validateBlockRecords g.records then false
    else validateBlocksRest H J g rest

/-! ### A concrete injective serializer and hash, used to instantiate the
idealized `H` and `J` in witnesses -/

/-- Injective encoding of a character list into a natural number. -/
def encCharList : List Char → Nat
  | [] => 0
  | c :: l => Nat.pair c.toNat (encCharList l) + 1

/-- Injective encoding of a string into a natural number. -/
def encString (s : String) : Nat := encCharList s.data

/-- Injective encoding of an integer into a natural number. -/
def encInt : Int → Nat
  | Int.ofNat n => 2 * n
  | Int.negSucc n => 2 * n + 1

/-- Injective encoding of a JSON field value into a natural number. -/
def encJsVal : JsVal → Nat
  | JsVal.num n => 3 * encInt n
  | JsVal.str s => 3 * encString s + 1
  | JsVal.nullv => 2

/-- Injective encoding of an optional JSON value. -/
def encOptJsVal : Option JsVal → Nat
  | none => 0
  | some v => encJsVal v + 1

/-- Injective encoding of a record status. -/
def encStatus : RecStatus → Nat
  | RecStatus.created => 0
  | RecStatus.approved => 1
  | RecStatus.inBlock => 2
  | RecStatus.inChain => 3
  | RecStatus.rejected => 4

/-- Injective encoding of a record into a natural number. -/
def encRecord (r : TxRecord) : Nat :=
  Nat.pair r.recordId
    (Nat.pair (encString r.payload) (Nat.pair (encOptJsVal r.amount) (encStatus r.status)))

/-- Injective encoding of a record list into a natural number. -/
def encRecList : List TxRecord → Nat
  | [] => 0
  | r :: l => Nat.pair (encRecord r) (encRecList l) + 1

/-- Concrete injective record-batch serializer, standing in for `JSON.stringify`
in witnesses. -/
def serJ (rs : List TxRecord) : String := natToDec (encRecList rs)

/-- Concrete injective hash function, standing in for SHA-256 in witnesses. -/
def hashId : String → String := id

theorem char_toNat_injective : Function.Injective Char.toNat := by
  intro a b h
  exact Char.ext (UInt32.ext h)

theorem encCharList_injective : Function.Injective encCharList := by
  intro l
  induction l with
  | nil =>
    intro m h
    cases m with
    | nil => rfl
    | cons c m => simp [encCharList] at h
  | cons c l ih =>
    intro m h
    cases m with
    | nil => simp [encCharList] at h
    | cons d m =>
      simp only [encCharList, Nat.add_right_cancel_iff, Nat.pair_eq_pair] at h
      obtain ⟨h1, h2⟩ := h
      rw [char_toNat_injective h1, ih h2]

theorem string_data_injective : Function.Injective String.data := by
  intro s t h
  cases s
  cases t
  exact congrArg String.mk h

theorem encString_injective : Function.Injective encString :=
  fun _ _ h => string_data_injective (encCharList_injective h)

theorem encInt_injective : Function.Injective encInt := by
  intro a b h
  cases a <;> cases b <;> simp only [encInt] at h
  · exact congrArg Int.ofNat (by omega)
  · exfalso; omega
  · exfalso; omega
  · exact congrArg Int.negSucc (by omega)

theorem encJsVal_injective : Function.Injective encJsVal := by
  intro a b h
  cases a <;> cases b <;> simp only [encJsVal] at h
  · exact congrArg JsVal.num (encInt_injective (show encInt _ = encInt _ by omega))
  · exfalso; omega
  · exfalso; omega
  · exfalso; omega
  · exact congrArg JsVal.str (encString_injective (show encString _ = encString _ by omega))
  · exfalso; omega
  · exfalso; omega
  · exfalso; omega
  · rfl

theorem encOptJsVal_injective : Function.Injective encOptJsVal := by
  intro a b h
  cases a <;> cases b <;> simp only [encOptJsVal] at h
  · rfl
  · exfalso; omega
  · exfalso; omega
  · exact congrArg Option.some (encJsVal_injective (show encJsVal _ = encJsVal _ by omega))

theorem encStatus_injective : Function.Injective encStatus := by
  intro a b h
  cases a <;> cases b <;> first | rfl | simp [encStatus] at h

theorem encRecord_injective : Function.Injective encRecord := by
  intro a b h
  simp only [encRecord, Nat.pair_eq_pair] at h
  obtain ⟨h1, h2, h3, h4⟩ := h
  cases a
  cases b
  simp only [TxRecord.mk.injEq]
  exact ⟨h1, encString_injective h2, encOptJsVal_injective h3, encStatus_injective h4⟩

theorem encRecList_injective : Function.Injective encRecList := by
  intro l
  induction l with
  | nil =>
    intro m h
    cases m with
    | nil => rfl
    | cons r m => simp [encRecList] at h
  | cons r l ih =>
    intro m h
    cases m with
    | nil => simp [encRecList] at h
    | cons q m =>
      simp only [encRecList, Nat.add_right_cancel_iff, Nat.pair_eq_pair] at h
      obtain ⟨h1, h2⟩ := h
      rw [encRecord_injective h1, ih h2]

theorem serJ_injective : Function.Injective serJ :=
  fun _ _ h => encRecList_injective (natToDec_injective h)

theorem hashId_injective : Function.Injective hashId :=
  fun _ _ h => h

/-! ### String concatenation cancellation for the hash input -/

theorem string_append_cancel_right {a b c : String} (h : a ++ c = b ++ c) : a = b := by
  apply string_data_injective
  have hd : a.data ++ c.data = b.data ++ c.data := by
    have h1 := congrArg String.data h
    simpa [String.data_append] using h1
  exact List.append_cancel_right hd

theorem string_append_cancel_left {a b c : String} (h : c ++ a = c ++ b) : a = b := by
  apply string_data_injective
  have hd : c.data ++ a.data = c.data ++ b.data := by
    have h1 := congrArg String.data h
    simpa [String.data_append] using h1
  exact List.append_cancel_left hd

theorem string_append_cancel_middle {p s a b : String} (h : p ++ a ++ s = p ++ b ++ s) :
    a = b := by
  rw [String.append_assoc, String.append_assoc] at h
  exact string_append_cancel_right (string_append_cancel_left h)

/-! ### Characterizing validateBlocks (claim C3) -/

/-- The stored hash matches the hash recomputed over the stored fields. -/
def blockHashOK (H : String → String) (J : List TxRecord → String) (b : Block) : Prop :=
  b.hash = computeBlockHash H J b.blockId b.prevHash b.timestamp b.records

theorem validateBlocksRest_cons_eq_true (H : String → String) (J : List TxRecord → String)
    (prev b : Block) (rest : List Block) :
    validateBlocksRest H J prev (b :: rest) = true ↔
      (blockHashOK H J b ∧ b.prevHash = prev.hash ∧ validateBlockRecords b.records = true ∧
        validateBlocksRest H J b rest = true) := by
  simp only [validateBlocksRest, blockHashOK]
  split_ifs with h1 h2 h3 <;> simp_all

theorem validateBlocks_cons_eq_true (H : String → String) (J : List TxRecord → String)
    (g : Block) (rest : List Block) :
    validateBlocks H J (g :: rest) = true ↔
      (blockHashOK H J g ∧ g.prevHash = "" ∧ validateBlockRecords g.records = true ∧
        validateBlocksRest H J g rest = true) := by
  simp only [validateBlocks, blockHashOK]
  split_ifs with h1 h2 h3 <;> simp_all

theorem validateBlocksRest_eq_true_iff (H : String → String) (J : List TxRecord → String) :
    ∀ (bs : List Block) (prev : Block),
      validateBlocksRest H J prev bs = true ↔
        ∀ i (h : i < bs.length),
          blockHashOK H J bs[i] ∧ validateBlockRecords (bs[i]).records = true ∧
          (i = 0 → (bs[i]).prevHash = prev.hash) ∧
          (∀ j (hj : j < bs.length), i = j + 1 → (bs[i]).prevHash = (bs[j]).hash) := by
  intro bs
  induction bs with
  | nil => intro prev; simp [validateBlocksRest]
  | cons b rest ih =>
    intro prev
    rw [validateBlocksRest_cons_eq_true, ih b]
    constructor
    · rintro ⟨hh, hp, hr, hrest⟩ i hi
      cases i with
      | zero =>
        refine ⟨by simpa using hh, by simpa using hr, fun _ => by simpa using hp, ?_⟩
        intro j hj hij
        exact absurd hij (by omega)
      | succ k =>
        have hk : k < rest.length := by simpa using hi
        obtain ⟨ih1, ih2, ih3, ih4⟩ := hrest k hk
        refine ⟨by simpa using ih1, by simpa using ih2, fun h0 => absurd h0 (by omega), ?_⟩
        intro j hj hij
        have hjk : j = k := by omega
        subst hjk
        cases j with
        | zero => simpa using ih3 rfl
        | succ m =>
          have hm : m < rest.length := by simpa using hj
          simpa using ih4 m (by omega) rfl
    · intro hall
      have h0 := hall 0 (by simp)
      refine ⟨by simpa using h0.1, by simpa using h0.2.2.1 rfl, by simpa using h0.2.1, ?_⟩
      intro k hk
      obtain ⟨a1, a2, a3, a4⟩ := hall (k + 1) (by simpa using Nat.succ_lt_succ hk)
      refine ⟨by simpa using a1, by simpa using a2, ?_, ?_⟩
      · intro hk0
        subst hk0
        simpa using a4 0 (by simp) rfl
      · intro j hj hkj
        simpa using a4 (j + 1) (by simpa using Nat.succ_lt_succ hj) (by omega)

/-- Declarative reading of chain validity (spec §4.5): every block's stored
hash matches the recomputation from its stored fields, its records are
structurally valid, the genesis block has empty `prevHash`, and each later
block's stored `prevHash` equals its predecessor's stored hash. -/
def ChainSpecValid (H : String → String) (J : List TxRecord → String)
    (bs : List Block) : Prop :=
  ∀ i (h : i < bs.length),
    blockHashOK H J bs[i] ∧ validateBlockRecords (bs[i]).records = true ∧
    (i = 0 → (bs[i]).prevHash = "") ∧
    (∀ j (hj : j < bs.length), i = j + 1 → (bs[i]).prevHash = (bs[j]).hash)

theorem validateBlocks_eq_true_iff (H : String → String) (J : List TxRecord → String)
    (bs : List Block) :
    validateBlocks H J bs = true ↔ ChainSpecValid H J bs := by
  cases bs with
  | nil => simp [validateBlocks, ChainSpecValid]
  | cons g rest =>
    rw [validateBlocks_cons_eq_true, validateBlocksRest_eq_true_iff]
    unfold ChainSpecValid
    constructor
    · rintro ⟨hh, hp, hr, hrest⟩ i hi
      cases i with
      | zero =>
        refine ⟨by simpa using hh, by simpa using hr, fun _ => by simpa using hp, ?_⟩
        intro j hj hij
        exact absurd hij (by omega)
      | succ k =>
        have hk : k < rest.length := by simpa using hi
        obtain ⟨ih1, ih2, ih3, ih4⟩ := hrest k hk
        refine ⟨by simpa using ih1, by simpa using ih2, fun h0 => absurd h0 (by omega), ?_⟩
        intro j hj hij
        have hjk : j = k := by omega
        subst hjk
        cases j with
        | zero => simpa using ih3 rfl
        | succ m =>
          have hm : m < rest.length := by simpa using hj
          simpa using ih4 m (by omega) rfl
    · intro hall
      have h0 := hall 0 (by simp)
      refine ⟨by simpa using h0.1, by simpa using h0.2.2.1 rfl, by simpa using h0.2.1, ?_⟩
      intro k hk
      obtain ⟨a1, a2, a3, a4⟩ := hall (k + 1) (by simpa using Nat.succ_lt_succ hk)
      refine ⟨by simpa using a1, by simpa using a2, ?_, ?_⟩
      · intro hk0
        subst hk0
        simpa using a4 0 (by simp) rfl
      · intro j hj hkj
        simpa using a4 (j + 1) (by simpa using Nat.succ_lt_succ hj) (by omega)

theorem validateBlocksRest_false_append (H : String → String) (J : List TxRecord → String) :
    ∀ (bs : List Block) (prev : Block) (cs : List Block),
      validateBlocksRest H J prev bs = false →
      validateBlocksRest H J prev (bs ++ cs) = false := by
  intro bs
  induction bs with
  | nil => intro prev cs h; simp [validateBlocksRest] at h
  | cons b rest ih =>
    intro prev cs h
    simp only [List.cons_append]
    simp only [validateBlocksRest] at h ⊢
    split_ifs at h ⊢ with h1 h2 h3
    · rfl
    · rfl
    · rfl
    · exact ih b cs h

theorem validateBlocks_false_append (H : String → String) (J : List TxRecord → String)
    (bs cs : List Block) (h : validateBlocks H J bs = false) :
    validateBlocks H J (bs ++ cs) = false := by
  cases bs with
  | nil => simp [validateBlocks] at h
  | cons g rest =>
    simp only [List.cons_append]
    simp only [validateBlocks] at h ⊢
    split_ifs at h ⊢ with h1 h2 h3
    · rfl
    · rfl
    · rfl
    · exact validateBlocksRest_false_append H J rest g cs h

/-- C3: `validateBlocks` (the body of the `validateChain` endpoint) is a pure,
hence read-only and deterministic, function of the chain list; it returns true
iff the genesis block has empty `previousHash`, every block's recomputed hash
equals its stored hash, every later block's stored `previousHash` equals its
predecessor's stored hash, and every embedded record passes structural
validity; and once a violation makes it false, blocks appended after the
violation are never examined (the result stays false whatever they are). -/
theorem claim_C3 (H : String → String) (J : List TxRecord → String) (bs : List Block) :
    (validateBlocks H J bs = true ↔ ChainSpecValid H J bs) ∧
    (validateBlocks H J bs = false → ∀ cs, validateBlocks H J (bs ++ cs) = false) :=
  ⟨validateBlocks_eq_true_iff H J bs, fun h cs => validateBlocks_false_append H J bs cs h⟩

/-- A block whose stored hash is correct over its stored fields. -/
def wGenesis : Block :=
  { docId := 0, blockId := 0, prevHash := "", timestamp := "t",
    hash := hashId (natToDec 0 ++ "" ++ "t" ++ serJ []),
    status := BStatus.inChain, records := [], approvedBy := [], rejectedBy := [] }

/-- A block whose stored hash does not match its recomputation. -/
def wBadBlock : Block :=
  { docId := 0, blockId := 0, prevHash := "", timestamp := "t", hash := "bad",
    status := BStatus.inChain, records := [], approvedBy := [], rejectedBy := [] }

theorem claim_C3_witness :
    validateBlocks hashId serJ ([wBadBlock] ++ [wGenesis]) = false :=
  (claim_C3 hashId serJ [wBadBlock]).2 (by decide) [wGenesis]

/-! ### Tamper evidence (claim C4) -/

/-- The ways of changing one single stored field of a block: its sequence
number, `previousHash`, timestamp, stored hash, or the content of one embedded
record (each changed to a different value). -/
inductive Tamper : Block → Block → Prop where
  | seqNum (b : Block) (x : Nat) :
      x ≠ b.blockId → Tamper b { b with blockId := x }
  | prevH (b : Block) (p : String) :
      p ≠ b.prevHash → Tamper b { b with prevHash := p }
  | stamp (b : Block) (t : String) :
      t ≠ b.timestamp → Tamper b { b with timestamp := t }
  | hashF (b : Block) (s : String) :
      s ≠ b.hash → Tamper b { b with hash := s }
  | recordContent (b : Block) (j : Nat) (hj : j < b.records.length) (r : TxRecord) :
      r ≠ b.records[j] → Tamper b { b with records := b.records.set j r }

theorem tamper_hash_mismatch (H : String → String) (J : List TxRecord → String)
    (hH : Function.Injective H) (hJ : Function.Injective J) (b b2 : Block)
    (hb : blockHashOK H J b) (ht : Tamper b b2) :
    b2.hash ≠ computeBlockHash H J b2.blockId b2.prevHash b2.timestamp b2.records := by
  unfold blockHashOK at hb
  unfold computeBlockHash at hb ⊢
  cases ht with
  | seqNum x hx =>
    intro heq
    simp only at heq
    rw [hb] at heq
    have hs := hH heq
    have := natToDec_injective
      (string_append_cancel_right (string_append_cancel_right (string_append_cancel_right hs)))
    exact hx this.symm
  | prevH p hp =>
    intro heq
    simp only at heq
    rw [hb] at heq
    have hs := hH heq
    have := string_append_cancel_left
      (string_append_cancel_right (string_append_cancel_right hs))
    exact hp this.symm
  | stamp t htm =>
    intro heq
    simp only at heq
    rw [hb] at heq
    have hs := hH heq
    have := string_append_cancel_left (string_append_cancel_right hs)
    exact htm this.symm
  | hashF s hs =>
    intro heq
    simp only at heq
    rw [← hb] at heq
    exact hs heq
  | recordContent j hj r hr =>
    intro heq
    simp only at heq
    rw [hb] at heq
    have hs := hH heq
    have hrec : J b.records = J (b.records.set j r) := string_append_cancel_left hs
    have hlist := hJ hrec
    have hj2 : j < (b.records.set j r).length := by rw [List.length_set]; exact hj
    have hr2 : (b.records.set j r)[j] = r := List.getElem_set_self hj2
    have h3 := List.getElem_of_eq hlist hj
    exact hr (by rw [h3, hr2])

theorem validateBlocksRest_cons_of_ok (H : String → String) (J : List TxRecord → String)
    (prev b : Block) (rest : List Block)
    (h1 : blockHashOK H J b) (h2 : b.prevHash = prev.hash)
    (h3 : validateBlockRecords b.records = true) :
    validateBlocksRest H J prev (b :: rest) = validateBlocksRest H J b rest := by
  simp only [validateBlocksRest]
  rw [if_neg (fun hc => hc h1), if_neg (fun hc => hc h2), if_neg (by simp [h3])]

theorem validateBlocks_cons_of_ok (H : String → String) (J : List TxRecord → String)
    (g : Block) (rest : List Block)
    (h1 : blockHashOK H J g) (h2 : g.prevHash = "")
    (h3 : validateBlockRecords g.records = true) :
    validateBlocks H J (g :: rest) = validateBlocksRest H J g rest := by
  simp only [validateBlocks]
  rw [if_neg (fun hc => hc h1), if_neg (fun hc => hc h2), if_neg (by simp [h3])]

theorem validateBlocksRest_set_false (H : String → String) (J : List TxRecord → String)
    (hH : Function.Injective H) (hJ : Function.Injective J) :
    ∀ (bs : List Block) (prev : Block) (k : Nat) (hk : k < bs.length) (b2 : Block),
      validateBlocksRest H J prev bs = true →
      Tamper bs[k] b2 →
      validateBlocksRest H J prev (bs.set k b2) = false := by
  intro bs
  induction bs with
  | nil => intro prev k hk; simp at hk
  | cons b rest ih =>
    intro prev k hk b2 hval ht
    obtain ⟨h1, h2, h3, h4⟩ := (validateBlocksRest_cons_eq_true H J prev b rest).1 hval
    cases k with
    | zero =>
      have hmm := tamper_hash_mismatch H J hH hJ b b2 h1 (by simpa using ht)
      simp only [List.set_cons_zero]
      simp only [validateBlocksRest]
      rw [if_pos hmm]
    | succ k =>
      have hk2 : k < rest.length := by simpa using hk
      have hrest := ih b k hk2 b2 h4 (by simpa using ht)
      simp only [List.set_cons_succ]
      rw [validateBlocksRest_cons_of_ok H J prev b _ h1 h2 h3]
      exact hrest

/-- C4: on any chain accepted by `validateBlocks`, changing any single stored
field of any block (sequence number, `previousHash`, timestamp, stored hash,
or the content of one embedded record) makes `validateBlocks` return false,
assuming the hash and the record serializer are collision-free (injective). -/
theorem claim_C4 (H : String → String) (J : List TxRecord → String)
    (hH : Function.Injective H) (hJ : Function.Injective J)
    (bs : List Block) (hval : validateBlocks H J bs = true)
    (i : Nat) (hi : i < bs.length) (b2 : Block) (ht : Tamper bs[i] b2) :
    validateBlocks H J (bs.set i b2) = false := by
  cases bs with
  | nil => simp at hi
  | cons g rest =>
    obtain ⟨h1, h2, h3, h4⟩ := (validateBlocks_cons_eq_true H J g rest).1 hval
    cases i with
    | zero =>
      have hmm := tamper_hash_mismatch H J hH hJ g b2 h1 (by simpa using ht)
      simp only [List.set_cons_zero]
      simp only [validateBlocks]
      rw [if_pos hmm]
    | succ k =>
      have hk : k < rest.length := by simpa using hi
      have hrest := validateBlocksRest_set_false H J hH hJ rest g k hk b2 h4 (by simpa using ht)
      simp only [List.set_cons_succ]
      rw [validateBlocks_cons_of_ok H J g _ h1 h2 h3]
      exact hrest

theorem claim_C4_witness :
    validateBlocks hashId serJ ([wGenesis].set 0 { wGenesis with hash := "bad" }) = false :=
  claim_C4 hashId serJ hashId_injective serJ_injective [wGenesis] (by decide) 0 (by decide)
    { wGenesis with hash := "bad" } (Tamper.hashF wGenesis "bad" (by decide))

/-! ### The store and the stateful operations -/

/-- The fixed batch size `MAX_RECORD = 2`. -/
def MAX_RECORD : Nat := 2

/-- A registered user; `authController.register` creates one per request body,
with whatever role the body carries. -/
structure User where
  username : String
  role : String
deriving DecidableEq

/-- A document of the `ApprovedRecordModel` collection: an approved record
waiting to be pulled into the next staging block.  Its `records` field is
named as in the source; the wrapped snapshot shape is modelled from the
spec. -/
structure ApprovedDoc where
  docId : Nat
  records : TxRecord
deriving DecidableEq

/-- The authoritative store: the block collection (in insertion order,
modelling MongoDB natural order), the Transaction and SupplyChain record
collections, the approved-record pool, the user collection, and a counter
producing fresh `_id` values. -/
structure Store where
  blocks : List Block
  transactions : List TxRecord
  supplies : List TxRecord
  approvedPool : List ApprovedDoc
  users : List User
  nextId : Nat
deriving DecidableEq

/-- API error taxonomy (spec §7). -/
inductive ApiErr where
  | notFound (msg : String)
  | badRequest (msg : String)
deriving DecidableEq

/-- Models `findOneAndUpdate(filter, update, {new: true})` on the block
collection: update the first matching document, return the updated document
(or `none` and the unchanged list when nothing matches). -/
def findAndUpdate (p : Block → Bool) (f : Block → Block) :
    List Block → Option Block × List Block
  | [] => (none, [])
  | b :: rest =>
    if p b then (some (f b), f b :: rest)
    else
      let r := findAndUpdate p f rest
      (r.1, b :: r.2)

/-- Models `ApprovedRecordModel.deleteOne({_id : i})`. -/
def deleteOneById (i : Nat) : List ApprovedDoc → List ApprovedDoc
  | [] => []
  | d :: rest => if d.docId = i then rest else d :: deleteOneById i rest

/-- Models the MongoDB `$addToSet` update operator. -/
def addToSet (l : List String) (u : String) : List String :=
  if u ∈ l then l else l ++ [u]

/-- The `inChain` blocks in store (natural) order, as returned by
`BlockModel.find({status : "inChain"})`. -/
def inChainBlocks (s : Store) : List Block :=
  s.blocks.filter (fun b => decide (b.status = BStatus.inChain))

/-- Models `find({status:"inChain"}).sort({blockId:-1})` followed by `[0]`:
the block with the greatest `blockId`, the first such one in natural order. -/
def maxByBlockId : List Block → Option Block
  | [] => none
  | b :: rest =>
    match maxByBlockId rest with
    | none => some b
    | some m => if m.blockId > b.blockId then some m else some b

/-- Embeds `createGenesisBlock()`: sequence number `GENESIS_BLOCK_ID = 0`,
empty `prevHash`, empty record batch, status `inChain`, hash computed over
those values. -/
def createGenesisBlock (H : String → String) (J : List TxRecord → String)
    (s : Store) (ts : String) : Store × Block :=
  let g : Block :=
    { docId := s.nextId, blockId := 0, prevHash := "",
      hash := computeBlockHash H J 0 "" ts [], timestamp := ts,
      status := BStatus.inChain, records := [], approvedBy := [], rejectedBy := [] }
  ({ s with blocks := s.blocks ++ [g], nextId := s.nextId + 1 }, g)

/-- A freshly created staging block (`BlockModel.create({records, timestamp})`);
the schema defaults for the fields the call leaves unset are modelled from the
spec: a created block starts `Hibernating`, with empty vote sets and
zero/empty sequence number and hashes. -/
def hibBlock (i : Nat) (rs : List TxRecord) (ts : String) : Block :=
  { docId := i, blockId := 0, prevHash := "", hash := "", timestamp := ts,
    status := BStatus.hibernating, records := rs, approvedBy := [], rejectedBy := [] }

/-- Embeds `createHibernateBlock()` of the current revision: when the approved
pool is non-empty the loop reads pool entries `0` and `1` unconditionally
(`MAX_RECORD = 2` iterations).  With exactly one pool document the first
iteration deletes it and the second iteration throws a TypeError on the
out-of-bounds read, so the function aborts before `BlockModel.create` runs:
the pool document is gone and no staging block is created. -/
def createHibernateBlock (s : Store) (ts : String) : Store :=
  match s.approvedPool with
  | [] =>
    { s with blocks := s.blocks ++ [hibBlock s.nextId [] ts], nextId := s.nextId + 1 }
  | [d0] =>
    { s with approvedPool := deleteOneById d0.docId s.approvedPool }
  | d0 :: d1 :: _ =>
    { s with
      approvedPool := deleteOneById d1.docId (deleteOneById d0.docId s.approvedPool),
      blocks := s.blocks ++ [hibBlock s.nextId [d0.records, d1.records] ts],
      nextId := s.nextId + 1 }

/-- Embeds `getBlockchain`: returns the `inChain` blocks; when none exist it
bootstraps the genesis block and the first staging block and responds with the
freshly created genesis document. -/
def getBlockchain (H : String → String) (J : List TxRecord → String)
    (s : Store) (ts1 ts2 : String) : Store × List Block :=
  let chain := inChainBlocks s
  if chain.length = 0 then
    let r := createGenesisBlock H J s ts1
    (createHibernateBlock r.1 ts2, [r.2])
  else (s, chain)

/-- Embeds `getWaitingBlock` as written: the filter is the JavaScript
expression `"Hibernating" || "Pending"`, and `||` returns its first truthy
operand, so the query matches only status `"Hibernating"`. -/
def getWaitingBlock (s : Store) : Option Block :=
  s.blocks.find? (fun b => decide (b.status = BStatus.hibernating))

/-- Modelled from the spec: `GetWaitingBlock` is specified to return the
current staging block whether it is Hibernating or Pending (spec §6). -/
def getWaitingBlockSpec (s : Store) : Option Block :=
  s.blocks.find? (fun b =>
    decide (b.status = BStatus.hibernating ∨ b.status = BStatus.pending))

/-- Embeds `activateBlock`: a Hibernating block with the given `_id` is moved
to `Pending` (with a fresh timestamp) when it holds exactly `MAX_RECORD`
records; fewer (or more) records fail with BadRequest before any write. -/
def activateBlock (s : Store) (blockID : Nat) (ts : String) :
    Store × Except ApiErr (Option Block) :=
  match s.blocks.find? (fun b =>
      decide (b.docId = blockID ∧ b.status = BStatus.hibernating)) with
  | none =>
    (s, Except.error (ApiErr.notFound "No block with this id or block has already been activated"))
  | some b =>
    if b.records.length = MAX_RECORD then
      let r := findAndUpdate (fun c => decide (c.docId = blockID))
        (fun c => { c with status := BStatus.pending, timestamp := ts }) s.blocks
      ({ s with blocks := r.2 }, Except.ok r.1)
    else (s, Except.error (ApiErr.badRequest "Insufficient records in this block"))

/-- Models `updateMany({status : "inBlock"}, {status : st})` over one record
collection: keyed only on the status value. -/
def updateManyInBlock (st : RecStatus) (l : List TxRecord) : List TxRecord :=
  l.map (fun r => if r.status = RecStatus.inBlock then { r with status := st } else r)

/-- Embeds `updateRecordsStatus()`: flips every `inBlock` record to `inChain`
in both the Transaction and the SupplyChain collections. -/
def updateRecordsStatus (s : Store) : Store :=
  { s with
    transactions := updateManyInBlock RecStatus.inChain s.transactions,
    supplies := updateManyInBlock RecStatus.inChain s.supplies }

/-- Embeds `rejectRecords()`: flips every `inBlock` record to `Rejected` in
both record collections. -/
def rejectRecords (s : Store) : Store :=
  { s with
    transactions := updateManyInBlock RecStatus.rejected s.transactions,
    supplies := updateManyInBlock RecStatus.rejected s.supplies }

/-- The in-memory loop of `updateRecordsStatusInBlock` /
`rejectRecordsStatusInBlock`: sets the status of the records at indices
`0 .. MAX_RECORD - 1`. -/
def setFirstTwo (st : RecStatus) (l : List TxRecord) : List TxRecord :=
  l.mapIdx (fun i r => if i < MAX_RECORD then { r with status := st } else r)

/-- Embeds `appendToBlockchain(block, id)`: the committed block receives
sequence number `highest inChain blockId + 1` and `prevHash` equal to that
block's hash, its hash recomputed over the final values and the passed
block's records; then the next staging block is created.  When no `inChain`
block exists the JS crashes reading `blockchain[0].blockId` before any write
(the `none` branch). -/
def appendToBlockchain (H : String → String) (J : List TxRecord → String)
    (s : Store) (block : Block) (id : Nat) (tsApp tsHib : String) :
    Store × Option Block :=
  match maxByBlockId (inChainBlocks s) with
  | none => (s, none)
  | some top =>
    let r := findAndUpdate
      (fun c => decide (c.docId = id ∧ c.status = BStatus.approved))
      (fun c =>
        { c with
          blockId := top.blockId + 1
          prevHash := top.hash
          hash := computeBlockHash H J (top.blockId + 1) top.hash tsApp block.records
          timestamp := tsApp
          status := BStatus.inChain }) s.blocks
    (createHibernateBlock { s with blocks := r.2 } tsHib, r.1)

/-- Models the JavaScript comparison `a / n >= 0.66`.  For `n = 0`: `0/0` is
NaN and compares false, `a/0` with `a > 0` is Infinity and compares true.
For `n > 0` the float comparison agrees with the exact rational inequality
`100 * a >= 66 * n` for every remotely realistic validator count, so it is
modelled exactly. -/
def pctGe (a n : Nat) : Bool :=
  if n = 0 then decide (a ≠ 0) else decide (66 * n ≤ 100 * a)

/-- Embeds `blockConsensus(block, id)`: on a Pending block, recompute the
approved and rejected fractions with denominator the number of registered
users with role Validator; cross the approve threshold and the block is
marked Approved, record statuses propagate, and the block is committed;
cross the reject threshold and it is marked Rejected (fresh timestamp),
record statuses propagate, and the next staging block is created; otherwise
nothing further happens.  The branches returning with no further effect model
the JS TypeError paths (`null` document, or a records array shorter than the
fixed loop bound) which abort the remaining writes of the pipeline. -/
def blockConsensus (H : String → String) (J : List TxRecord → String)
    (s : Store) (block : Block) (id : Nat) (tsRej tsApp tsHib : String) :
    Store × Option Block :=
  if block.status = BStatus.pending then
    if pctGe block.approvedBy.length
        (s.users.filter (fun u => decide (u.role = "Validator"))).length then
      let r := findAndUpdate (fun c => decide (c.docId = id))
        (fun c => { c with status := BStatus.approved }) s.blocks
      let s1 := updateRecordsStatus { s with blocks := r.2 }
      match r.1 with
      | none => (s1, none)
      | some b1 =>
        if MAX_RECORD ≤ b1.records.length then
          let b2 := { b1 with records := setFirstTwo RecStatus.inChain b1.records }
          let rs := findAndUpdate (fun c => decide (c.docId = b1.docId)) (fun _ => b2) s1.blocks
          appendToBlockchain H J { s1 with blocks := rs.2 } b2 id tsApp tsHib
        else (s1, none)
    else if pctGe block.rejectedBy.length
        (s.users.filter (fun u => decide (u.role = "Validator"))).length then
      let r := findAndUpdate (fun c => decide (c.docId = id))
        (fun c => { c with status := BStatus.rejected, timestamp := tsRej }) s.blocks
      let s1 := rejectRecords { s with blocks := r.2 }
      match r.1 with
      | none => (s1, none)
      | some b1 =>
        if MAX_RECORD ≤ b1.records.length then
          let b2 := { b1 with records := setFirstTwo RecStatus.rejected b1.records }
          let rs := findAndUpdate (fun c => decide (c.docId = b1.docId)) (fun _ => b2) s1.blocks
          (createHibernateBlock { s1 with blocks := rs.2 } tsHib, some b2)
        else (s1, none)
    else (s, some block)
  else (s, none)

/-- Embeds `approveBlock` (the CastVote endpoint): reject (before any write)
when the caller already appears in the block's `approvedBy` or `rejectedBy`;
otherwise `$addToSet` the caller into the chosen vote set of the Pending
block with this `_id` (NotFound when there is none) and run
`blockConsensus`. -/
def approveBlock (H : String → String) (J : List TxRecord → String)
    (s : Store) (blockID : Nat) (username : String) (isApproved : Bool)
    (tsRej tsApp tsHib : String) : Store × Except ApiErr (Option Block) :=
  match s.blocks.find? (fun b =>
      decide (b.docId = blockID ∧ (username ∈ b.approvedBy ∨ username ∈ b.rejectedBy))) with
  | some _ => (s, Except.error (ApiErr.badRequest "Already rejected or approved this block"))
  | none =>
    let r := findAndUpdate
      (fun b => decide (b.docId = blockID ∧ b.status = BStatus.pending))
      (fun b =>
        if isApproved then { b with approvedBy := addToSet b.approvedBy username }
        else { b with rejectedBy := addToSet b.rejectedBy username }) s.blocks
    match r.1 with
    | none =>
      (s, Except.error (ApiErr.notFound "No pending block with this id or block has not been activated"))
    | some b =>
      let res := blockConsensus H J { s with blocks := r.2 } b blockID tsRej tsApp tsHib
      (res.1, Except.ok res.2)

/-! ### Reachability -/

/-- The empty initial store: a fresh deployment has no blocks, records or
users (spec §4.3, initial state). -/
def initStore : Store :=
  { blocks := [], transactions := [], supplies := [], approvedPool := [],
    users := [], nextId := 0 }

/-- One externally-triggered operation (spec §5: request-driven).  The first
four constructors model the collaborators: user registration
(`authController.register`) and record creation (Record Store, modelled from
the spec since `transactionController.js` is absent from the sources). -/
inductive Step (H : String → String) (J : List TxRecord → String) : Store → Store → Prop where
  | register (s : Store) (u : User) :
      Step H J s { s with users := s.users ++ [u] }
  | addTransaction (s : Store) (r : TxRecord) :
      Step H J s { s with transactions := s.transactions ++ [r] }
  | addSupply (s : Store) (r : TxRecord) :
      Step H J s { s with supplies := s.supplies ++ [r] }
  | addApproved (s : Store) (r : TxRecord) :
      Step H J s
        { s with
          approvedPool := s.approvedPool ++ [{ docId := s.nextId, records := r }]
          nextId := s.nextId + 1 }
  | getChain (s : Store) (ts1 ts2 : String) :
      Step H J s (getBlockchain H J s ts1 ts2).1
  | activate (s : Store) (blockID : Nat) (ts : String) :
      Step H J s (activateBlock s blockID ts).1
  | vote (s : Store) (blockID : Nat) (username : String) (isApproved : Bool)
      (tsRej tsApp tsHib : String) :
      Step H J s (approveBlock H J s blockID username isApproved tsRej tsApp tsHib).1

/-- Stores reachable from a fresh deployment by external calls. -/
def Reachable (H : String → String) (J : List TxRecord → String) (s : Store) : Prop :=
  Relation.ReflTransGen (Step H J) initStore s

/-! ### Claims C6, C8, C10 -/

/-- C6: called on a Hibernating block whose record list does not have length
exactly `MAX_RECORD = 2` (in particular, fewer than 2 records),
`activateBlock` fails with the BadRequest "insufficient records" error and
returns the store unchanged — the block's status and every other field are
untouched; and whenever the call succeeds, the activated block held exactly
`MAX_RECORD` records, so a block moves from Hibernating to Pending only at
full capacity. -/
theorem claim_C6 (s : Store) (blockID : Nat) (ts : String) (b : Block)
    (hfind : s.blocks.find? (fun c =>
      decide (c.docId = blockID ∧ c.status = BStatus.hibernating)) = some b) :
    (b.records.length ≠ MAX_RECORD →
      activateBlock s blockID ts =
        (s, Except.error (ApiErr.badRequest "Insufficient records in this block"))) ∧
    (∀ ob, (activateBlock s blockID ts).2 = Except.ok ob →
      b.records.length = MAX_RECORD) := by
  constructor
  · intro hlen
    unfold activateBlock
    rw [hfind]
    dsimp only
    rw [if_neg hlen]
  · intro ob hok
    unfold activateBlock at hok
    rw [hfind] at hok
    dsimp only at hok
    by_cases hlen : b.records.length = MAX_RECORD
    · exact hlen
    · rw [if_neg hlen] at hok
      exact absurd hok (by simp)

/-- A concrete record used in witnesses. -/
def wRec : TxRecord :=
  { recordId := 0, payload := "", amount := none, status := RecStatus.approved }

/-- A second concrete record used in witnesses. -/
def wRec2 : TxRecord :=
  { recordId := 1, payload := "", amount := some (JsVal.num 7), status := RecStatus.approved }

/-- A Hibernating block holding a single record. -/
def wHibOne : Block :=
  { docId := 5, blockId := 0, prevHash := "", hash := "", timestamp := "t",
    status := BStatus.hibernating, records := [wRec], approvedBy := [], rejectedBy := [] }

/-- A store whose only block is the one-record Hibernating block. -/
def sHibOne : Store :=
  { blocks := [wHibOne], transactions := [], supplies := [], approvedPool := [],
    users := [], nextId := 6 }

theorem claim_C6_witness :
    activateBlock sHibOne 5 "t2" =
      (sHibOne, Except.error (ApiErr.badRequest "Insufficient records in this block")) :=
  (claim_C6 sHibOne 5 "t2" wHibOne (by decide)).1 (by decide)

/-- A Pending staging block (the only staging block of its store). -/
def wPendingOnly : Block :=
  { docId := 5, blockId := 0, prevHash := "", hash := "", timestamp := "t",
    status := BStatus.pending, records := [wRec, wRec2], approvedBy := [], rejectedBy := [] }

/-- A store whose only staging block is Pending (no Hibernating block). -/
def sPendingOnly : Store :=
  { blocks := [wPendingOnly], transactions := [], supplies := [], approvedPool := [],
    users := [], nextId := 6 }

/-- C8 fails on the code: the query filter is the JavaScript expression
`"Hibernating" || "Pending"`, which evaluates to `"Hibernating"`, so on a
store whose staging block is Pending the endpoint returns null even though a
Pending staging block exists; the spec-modelled behaviour returns that
block. -/
theorem claim_C8 :
    getWaitingBlock sPendingOnly = none ∧
    wPendingOnly ∈ sPendingOnly.blocks ∧ wPendingOnly.status = BStatus.pending ∧
    getWaitingBlockSpec sPendingOnly = some wPendingOnly := by
  refine ⟨by decide, by decide, by decide, by decide⟩

/-- The pool indices read by the `createHibernateBlock` loop: `0` and `1`
whenever the pool is non-empty (the loop bound is the constant
`MAX_RECORD = 2`, not the pool length). -/
def hibernateLoopReads (pool : List ApprovedDoc) : List Nat :=
  if pool.length > 0 then [0, 1] else []

/-- Every pool index read by the loop is within bounds. -/
def hibernateReadsInBounds (pool : List ApprovedDoc) : Prop :=
  ∀ i ∈ hibernateLoopReads pool, i < pool.length

/-- C10: the loop of `createHibernateBlock` reads pool entries 0 and 1
unconditionally whenever the pool is non-empty, so its accesses are in bounds
iff the pool is empty or holds at least `MAX_RECORD = 2` entries; with exactly
one waiting approved record the read of entry 1 is past the end of the pool
(and the aborted call creates no staging block). -/
theorem claim_C10 (pool : List ApprovedDoc) :
    (hibernateReadsInBounds pool ↔ (pool.length = 0 ∨ MAX_RECORD ≤ pool.length)) ∧
    (∀ s ts, s.approvedPool = pool → pool.length = 1 →
      ¬ hibernateReadsInBounds pool ∧ (createHibernateBlock s ts).blocks = s.blocks) := by
  constructor
  · unfold hibernateReadsInBounds hibernateLoopReads MAX_RECORD
    by_cases h : pool.length > 0
    · rw [if_pos h]
      simp only [List.mem_cons, List.mem_singleton]
      constructor
      · intro hall
        right
        have := hall 1 (Or.inr (Or.inl rfl))
        omega
      · intro hor i hi
        rcases hor with h0 | h2
        · omega
        · rcases hi with h | h | h
          · omega
          · omega
          · simp at h
    · rw [if_neg h]
      simp only [List.not_mem_nil, false_implies, implies_true, true_iff]
      omega
  · intro s ts hpool hlen
    constructor
    · unfold hibernateReadsInBounds hibernateLoopReads
      rw [if_pos (by omega)]
      intro hall
      have := hall 1 (by simp)
      omega
    · match hp : s.approvedPool, hpool, hlen with
      | [d0], _, _ =>
        unfold createHibernateBlock
        rw [hp]
  -- the [d0] branch leaves blocks unchanged

/-- A store with a single waiting approved record. -/
def sOnePool : Store :=
  { blocks := [], transactions := [], supplies := [],
    approvedPool := [{ docId := 0, records := wRec }], users := [], nextId := 1 }

theorem claim_C10_witness :
    ¬ hibernateReadsInBounds [{ docId := 0, records := wRec }] ∧
    (createHibernateBlock sOnePool "t").blocks = sOnePool.blocks :=
  (claim_C10 [{ docId := 0, records := wRec }]).2 sOnePool "t" rfl (by decide)

/-! ### Toolkit lemmas for the store operations -/

/-- The number of currently registered users with role Validator. -/
def countValidators (s : Store) : Nat :=
  (s.users.filter (fun u => decide (u.role = "Validator"))).length

theorem findAndUpdate_of_none (p : Block → Bool) (f : Block → Block) :
    ∀ l : List Block, (∀ x ∈ l, p x = false) → findAndUpdate p f l = (none, l) := by
  intro l
  induction l with
  | nil => intro h; rfl
  | cons b rest ih =>
    intro h
    unfold findAndUpdate
    rw [if_neg (by rw [h b (by simp)]; simp)]
    rw [ih (fun x hx => h x (by simp [hx]))]

theorem findAndUpdate_match (p : Block → Bool) (f : Block → Block) :
    ∀ (pre : List Block) (d : Block) (post : List Block),
      (∀ x ∈ pre, p x = false) → p d = true →
      findAndUpdate p f (pre ++ d :: post) = (some (f d), pre ++ f d :: post) := by
  intro pre
  induction pre with
  | nil =>
    intro d post hpre hd
    simp only [List.nil_append]
    unfold findAndUpdate
    rw [if_pos hd]
  | cons a rest ih =>
    intro d post hpre hd
    simp only [List.cons_append]
    unfold findAndUpdate
    rw [if_neg (by rw [hpre a (by simp)]; simp)]
    rw [ih d post (fun x hx => hpre x (by simp [hx])) hd]

theorem decompose_by_docId (l : List Block) (b : Block)
    (hnodup : (l.map Block.docId).Nodup) (hmem : b ∈ l) :
    ∃ pre post, l = pre ++ b :: post ∧
      (∀ x ∈ pre, x.docId ≠ b.docId) ∧ (∀ x ∈ post, x.docId ≠ b.docId) := by
  obtain ⟨pre, post, rfl⟩ := List.append_of_mem hmem
  refine ⟨pre, post, rfl, ?_, ?_⟩
  · intro x hx heq
    have h1 : (pre.map Block.docId ++ b.docId :: post.map Block.docId).Nodup := by
      simpa using hnodup
    rw [List.nodup_middle, List.nodup_cons] at h1
    exact h1.1 (by rw [← heq]; exact List.mem_append_left _ (List.mem_map_of_mem _ hx))
  · intro x hx heq
    have h1 : (pre.map Block.docId ++ b.docId :: post.map Block.docId).Nodup := by
      simpa using hnodup
    rw [List.nodup_middle, List.nodup_cons] at h1
    exact h1.1 (by rw [← heq]; exact List.mem_append_right _ (List.mem_map_of_mem _ hx))

theorem filter_middle_not (q : Block → Bool) (pre post : List Block) (d : Block)
    (hd : q d = false) :
    (pre ++ d :: post).filter q = pre.filter q ++ post.filter q := by
  rw [List.filter_append, List.filter_cons, hd]
  simp

theorem pairwise_middle_facts {R : Block → Block → Prop} {pre post : List Block} {d : Block}
    (h : List.Pairwise R (pre ++ d :: post)) :
    (∀ a ∈ pre, R a d) ∧ (∀ x ∈ post, R d x) := by
  rw [List.pairwise_append] at h
  obtain ⟨h1, h2, h3⟩ := h
  rw [List.pairwise_cons] at h2
  exact ⟨fun a ha => h3 a ha d (by simp), fun x hx => h2.1 x hx⟩

theorem pairwise_middle_congr {R : Block → Block → Prop} {pre post : List Block} {d : Block}
    (h : List.Pairwise R (pre ++ d :: post)) (d2 : Block)
    (h1 : ∀ a ∈ pre, R a d → R a d2) (h2 : ∀ x ∈ post, R d x → R d2 x) :
    List.Pairwise R (pre ++ d2 :: post) := by
  rw [List.pairwise_append] at h ⊢
  obtain ⟨ha, hb, hc⟩ := h
  rw [List.pairwise_cons] at hb ⊢
  refine ⟨ha, ⟨fun x hx => h2 x hx (hb.1 x hx), hb.2⟩, ?_⟩
  intro a hap x hx
  rcases List.mem_cons.1 hx with rfl | hx2
  · exact h1 a hap (hc a hap d (by simp))
  · exact hc a hap x (by simp [hx2])

theorem pairwise_snoc {R : Block → Block → Prop} {l : List Block} {x : Block}
    (h : List.Pairwise R l) (hx : ∀ a ∈ l, R a x) :
    List.Pairwise R (l ++ [x]) := by
  rw [List.pairwise_append]
  exact ⟨h, List.pairwise_singleton R x, fun a ha b hb => by
    rw [List.mem_singleton] at hb
    subst hb
    exact hx a ha⟩

theorem maxByBlockId_eq_none : ∀ l : List Block, maxByBlockId l = none → l = [] := by
  intro l h
  cases l with
  | nil => rfl
  | cons a rest =>
    unfold maxByBlockId at h
    cases hm : maxByBlockId rest with
    | none => rw [hm] at h; simp at h
    | some m =>
      rw [hm] at h
      dsimp only at h
      split_ifs at h <;> simp at h

theorem maxByBlockId_mem : ∀ (l : List Block) (b : Block), maxByBlockId l = some b → b ∈ l := by
  intro l
  induction l with
  | nil => intro b h; simp [maxByBlockId] at h
  | cons a rest ih =>
    intro b h
    unfold maxByBlockId at h
    cases hm : maxByBlockId rest with
    | none =>
      rw [hm] at h
      have : a = b := by simpa using h
      simp [this]
    | some m =>
      rw [hm] at h
      dsimp only at h
      by_cases hgt : m.blockId > a.blockId
      · rw [if_pos hgt] at h
        have : m = b := by simpa using h
        subst this
        exact List.mem_cons_of_mem a (ih m hm)
      · rw [if_neg hgt] at h
        have : a = b := by simpa using h
        simp [this]

theorem maxByBlockId_ge : ∀ (l : List Block) (b : Block), maxByBlockId l = some b →
    ∀ c ∈ l, c.blockId ≤ b.blockId := by
  intro l
  induction l with
  | nil => intro b h; simp [maxByBlockId] at h
  | cons a rest ih =>
    intro b h c hc
    unfold maxByBlockId at h
    cases hm : maxByBlockId rest with
    | none =>
      rw [hm] at h
      have hab : a = b := by simpa using h
      subst hab
      have hrest : rest = [] := maxByBlockId_eq_none rest hm
      subst hrest
      rcases List.mem_cons.1 hc with rfl | hc2
      · exact le_rfl
      · simp at hc2
    | some m =>
      rw [hm] at h
      dsimp only at h
      by_cases hgt : m.blockId > a.blockId
      · rw [if_pos hgt] at h
        have : m = b := by simpa using h
        subst this
        rcases List.mem_cons.1 hc with rfl | hc2
        · omega
        · exact ih m hm c hc2
      · rw [if_neg hgt] at h
        have : a = b := by simpa using h
        subst this
        rcases List.mem_cons.1 hc with rfl | hc2
        · exact le_rfl
        · exact le_trans (ih m hm c hc2) (by omega)

theorem maxByBlockId_isSome : ∀ (l : List Block), l ≠ [] → ∃ b, maxByBlockId l = some b := by
  intro l hl
  cases hm : maxByBlockId l with
  | none => exact absurd (maxByBlockId_eq_none l hm) hl
  | some m => exact ⟨m, rfl⟩

theorem addToSet_of_not_mem (l : List String) (u : String) (h : u ∉ l) :
    addToSet l u = l ++ [u] := by
  unfold addToSet
  rw [if_neg h]

/-! ### Closed forms of the vote pipeline -/

/-- The effect of the `$addToSet` vote update on the target block. -/
def voteAdd (d : Block) (username : String) (isApproved : Bool) : Block :=
  if isApproved then { d with approvedBy := addToSet d.approvedBy username }
  else { d with rejectedBy := addToSet d.rejectedBy username }

/-- The committed form of a block: next sequence number, linked to `top`,
hash recomputed over the final values, records flipped to `inChain`. -/
def commitBlockF (H : String → String) (J : List TxRecord → String)
    (d1 top : Block) (ts : String) : Block :=
  { d1 with
    blockId := top.blockId + 1
    prevHash := top.hash
    hash := computeBlockHash H J (top.blockId + 1) top.hash ts
      (setFirstTwo RecStatus.inChain d1.records)
    timestamp := ts
    status := BStatus.inChain
    records := setFirstTwo RecStatus.inChain d1.records }

/-- The rejected form of a block: status Rejected, fresh timestamp, records
flipped to `Rejected`. -/
def rejectBlockF (d1 : Block) (ts : String) : Block :=
  { d1 with
    status := BStatus.rejected
    timestamp := ts
    records := setFirstTwo RecStatus.rejected d1.records }

theorem voteAdd_status (d : Block) (u : String) (i : Bool) :
    (voteAdd d u i).status = d.status := by
  unfold voteAdd; split_ifs <;> rfl

theorem voteAdd_docId (d : Block) (u : String) (i : Bool) :
    (voteAdd d u i).docId = d.docId := by
  unfold voteAdd; split_ifs <;> rfl

theorem voteAdd_records (d : Block) (u : String) (i : Bool) :
    (voteAdd d u i).records = d.records := by
  unfold voteAdd; split_ifs <;> rfl

theorem voteAdd_approvedBy (d : Block) (u : String) (i : Bool) (h : u ∉ d.approvedBy) :
    (voteAdd d u i).approvedBy = if i then d.approvedBy ++ [u] else d.approvedBy := by
  unfold voteAdd
  cases i <;> simp [addToSet_of_not_mem _ _ h]

theorem voteAdd_rejectedBy (d : Block) (u : String) (i : Bool) (h : u ∉ d.rejectedBy) :
    (voteAdd d u i).rejectedBy = if i then d.rejectedBy else d.rejectedBy ++ [u] := by
  unfold voteAdd
  cases i <;> simp [addToSet_of_not_mem _ _ h]

/-- The duplicate-vote guard and vote update of `approveBlock`: with no prior
vote by `username` on the target block, the endpoint records the vote and
defers to `blockConsensus` on the updated store and block. -/
theorem approveBlock_success (H : String → String) (J : List TxRecord → String)
    (s : Store) (blockID : Nat) (username : String) (isApproved : Bool)
    (tsRej tsApp tsHib : String) (pre post : List Block) (d : Block)
    (hdec : s.blocks = pre ++ d :: post)
    (hid : d.docId = blockID)
    (hpre : ∀ x ∈ pre, x.docId ≠ blockID)
    (hpost : ∀ x ∈ post, x.docId ≠ blockID)
    (hstat : d.status = BStatus.pending)
    (hnA : username ∉ d.approvedBy) (hnR : username ∉ d.rejectedBy) :
    approveBlock H J s blockID username isApproved tsRej tsApp tsHib =
      ((blockConsensus H J { s with blocks := pre ++ voteAdd d username isApproved :: post }
          (voteAdd d username isApproved) blockID tsRej tsApp tsHib).1,
       Except.ok (blockConsensus H J
          { s with blocks := pre ++ voteAdd d username isApproved :: post }
          (voteAdd d username isApproved) blockID tsRej tsApp tsHib).2) := by
  unfold approveBlock
  have hdup : s.blocks.find? (fun b =>
      decide (b.docId = blockID ∧ (username ∈ b.approvedBy ∨ username ∈ b.rejectedBy))) = none := by
    rw [List.find?_eq_none]
    intro x hx
    rw [hdec] at hx
    simp only [decide_eq_true_eq, not_and, not_or]
    rcases List.mem_append.1 hx with hx1 | hx2
    · intro hcon; exact absurd hcon (hpre x hx1)
    · rcases List.mem_cons.1 hx2 with rfl | hx3
      · exact fun _ => ⟨hnA, hnR⟩
      · intro hcon; exact absurd hcon (hpost x hx3)
  rw [hdup]
  dsimp only
  have hvote := findAndUpdate_match
    (fun b => decide (b.docId = blockID ∧ b.status = BStatus.pending))
    (fun b =>
      if isApproved then { b with approvedBy := addToSet b.approvedBy username }
      else { b with rejectedBy := addToSet b.rejectedBy username })
    pre d post
    (fun x hx => by simp only [decide_eq_false_iff_not, not_and]; intro hc; exact absurd hc (hpre x hx))
    (by simp only [decide_eq_true_eq]; exact ⟨hid, hstat⟩)
  rw [hdec, hvote]
  rfl

/-- The filter selecting `inChain` blocks. -/
def inChainP : Block → Bool := fun b => decide (b.status = BStatus.inChain)

/-- `blockConsensus` when the approve threshold is crossed: the block is
committed — next sequence number, linked to the current top block, records
flipped, record stores propagated, next staging block created. -/
theorem blockConsensus_commit (H : String → String) (J : List TxRecord → String)
    (s1 : Store) (d1 : Block) (blockID : Nat) (tsRej tsApp tsHib : String)
    (pre post : List Block) (top : Block)
    (hdec : s1.blocks = pre ++ d1 :: post)
    (hid : d1.docId = blockID)
    (hpre : ∀ x ∈ pre, x.docId ≠ blockID)
    (hstat : d1.status = BStatus.pending)
    (hlen : MAX_RECORD ≤ d1.records.length)
    (htop : maxByBlockId (pre.filter inChainP ++ post.filter inChainP) = some top)
    (hA : pctGe d1.approvedBy.length (countValidators s1) = true) :
    blockConsensus H J s1 d1 blockID tsRej tsApp tsHib =
      (createHibernateBlock
        { s1 with
          blocks := pre ++ commitBlockF H J d1 top tsApp :: post
          transactions := updateManyInBlock RecStatus.inChain s1.transactions
          supplies := updateManyInBlock RecStatus.inChain s1.supplies } tsHib,
       some (commitBlockF H J d1 top tsApp)) := by
  have hA2 : pctGe d1.approvedBy.length
      ((s1.users.filter (fun u => decide (u.role = "Validator"))).length) = true := hA
  unfold blockConsensus
  rw [if_pos hstat, if_pos hA2]
  rw [hdec]
  rw [findAndUpdate_match (fun c => decide (c.docId = blockID))
    (fun c => { c with status := BStatus.approved }) pre d1 post
    (fun x hx => by simp only [decide_eq_false_iff_not]; exact hpre x hx)
    (by simp only [decide_eq_true_eq]; exact hid)]
  dsimp only
  rw [if_pos (show MAX_RECORD ≤ d1.records.length from hlen)]
  unfold updateRecordsStatus
  dsimp only
  rw [findAndUpdate_match (fun c => decide (c.docId = d1.docId)) _ pre _ post
    (fun x hx => by
      simp only [decide_eq_false_iff_not]
      rw [hid]
      exact hpre x hx)
    (by simp only [decide_eq_true_eq])]
  dsimp only
  unfold appendToBlockchain
  unfold inChainBlocks
  dsimp only
  rw [show (fun b => decide (b.status = BStatus.inChain)) = inChainP from rfl]
  rw [filter_middle_not inChainP pre post _ (by simp [inChainP])]
  rw [htop]
  dsimp only
  rw [findAndUpdate_match
    (fun c => decide (c.docId = blockID ∧ c.status = BStatus.approved)) _ pre _ post
    (fun x hx => by simp only [decide_eq_false_iff_not, not_and]; intro hc; exact absurd hc (hpre x hx))
    (by simp [hid])]
  dsimp only
  rfl

/-- `blockConsensus` when the reject threshold is crossed (and the approve
threshold is not): the block is marked Rejected with a fresh timestamp, its
records flip to Rejected, record stores propagate, the next staging block is
created, and no chain commit happens. -/
theorem blockConsensus_reject (H : String → String) (J : List TxRecord → String)
    (s1 : Store) (d1 : Block) (blockID : Nat) (tsRej tsApp tsHib : String)
    (pre post : List Block)
    (hdec : s1.blocks = pre ++ d1 :: post)
    (hid : d1.docId = blockID)
    (hpre : ∀ x ∈ pre, x.docId ≠ blockID)
    (hstat : d1.status = BStatus.pending)
    (hlen : MAX_RECORD ≤ d1.records.length)
    (hA : pctGe d1.approvedBy.length (countValidators s1) = false)
    (hR : pctGe d1.rejectedBy.length (countValidators s1) = true) :
    blockConsensus H J s1 d1 blockID tsRej tsApp tsHib =
      (createHibernateBlock
        { s1 with
          blocks := pre ++ rejectBlockF d1 tsRej :: post
          transactions := updateManyInBlock RecStatus.rejected s1.transactions
          supplies := updateManyInBlock RecStatus.rejected s1.supplies } tsHib,
       some (rejectBlockF d1 tsRej)) := by
  have hA2 : pctGe d1.approvedBy.length
      ((s1.users.filter (fun u => decide (u.role = "Validator"))).length) = false := hA
  have hR2 : pctGe d1.rejectedBy.length
      ((s1.users.filter (fun u => decide (u.role = "Validator"))).length) = true := hR
  unfold blockConsensus
  rw [if_pos hstat]
  rw [if_neg (by rw [hA2]; simp), if_pos hR2]
  rw [hdec]
  rw [findAndUpdate_match (fun c => decide (c.docId = blockID))
    (fun c => { c with status := BStatus.rejected, timestamp := tsRej }) pre d1 post
    (fun x hx => by simp only [decide_eq_false_iff_not]; exact hpre x hx)
    (by simp only [decide_eq_true_eq]; exact hid)]
  dsimp only
  rw [if_pos (show MAX_RECORD ≤ d1.records.length from hlen)]
  unfold rejectRecords
  dsimp only
  rw [findAndUpdate_match (fun c => decide (c.docId = d1.docId)) _ pre _ post
    (fun x hx => by
      simp only [decide_eq_false_iff_not]
      rw [hid]
      exact hpre x hx)
    (by simp only [decide_eq_true_eq])]
  dsimp only
  rfl

/-- `blockConsensus` when neither threshold is crossed: the vote stands, and
nothing else changes. -/
theorem blockConsensus_nothing (H : String → String) (J : List TxRecord → String)
    (s1 : Store) (d1 : Block) (blockID : Nat) (tsRej tsApp tsHib : String)
    (hstat : d1.status = BStatus.pending)
    (hA : pctGe d1.approvedBy.length (countValidators s1) = false)
    (hR : pctGe d1.rejectedBy.length (countValidators s1) = false) :
    blockConsensus H J s1 d1 blockID tsRej tsApp tsHib = (s1, some d1) := by
  unfold blockConsensus
  rw [if_pos hstat]
  rw [if_neg (by rw [show (s1.users.filter (fun u => decide (u.role = "Validator"))).length
        = countValidators s1 from rfl, hA]; simp)]
  rw [if_neg (by rw [show (s1.users.filter (fun u => decide (u.role = "Validator"))).length
        = countValidators s1 from rfl, hR]; simp)]

/-! ### The error paths of approveBlock -/

/-- The duplicate-vote guard: when the calling validator already appears in
the target block's `approvedBy` or `rejectedBy`, the call fails with the
BadRequest duplicate-vote error and the store is returned unchanged. -/
theorem approveBlock_dup (H : String → String) (J : List TxRecord → String)
    (s : Store) (blockID : Nat) (username : String) (isApproved : Bool)
    (tsRej tsApp tsHib : String) (d : Block)
    (hmem : d ∈ s.blocks) (hid : d.docId = blockID)
    (hvoted : username ∈ d.approvedBy ∨ username ∈ d.rejectedBy) :
    approveBlock H J s blockID username isApproved tsRej tsApp tsHib =
      (s, Except.error (ApiErr.badRequest "Already rejected or approved this block")) := by
  unfold approveBlock
  have hsome : (s.blocks.find? (fun b =>
      decide (b.docId = blockID ∧ (username ∈ b.approvedBy ∨ username ∈ b.rejectedBy)))).isSome := by
    rw [List.find?_isSome]
    exact ⟨d, hmem, by simp only [decide_eq_true_eq]; exact ⟨hid, hvoted⟩⟩
  cases hfind : s.blocks.find? (fun b =>
      decide (b.docId = blockID ∧ (username ∈ b.approvedBy ∨ username ∈ b.rejectedBy))) with
  | none => rw [hfind] at hsome; simp at hsome
  | some x => rfl

/-- When no Pending block carries the given `_id` (and the caller has not
voted on any block with that `_id`), the call fails with NotFound and the
store is returned unchanged. -/
theorem approveBlock_noPending (H : String → String) (J : List TxRecord → String)
    (s : Store) (blockID : Nat) (username : String) (isApproved : Bool)
    (tsRej tsApp tsHib : String)
    (hnodup : ∀ x ∈ s.blocks, ¬(x.docId = blockID ∧ (username ∈ x.approvedBy ∨ username ∈ x.rejectedBy)))
    (hnp : ∀ x ∈ s.blocks, ¬(x.docId = blockID ∧ x.status = BStatus.pending)) :
    approveBlock H J s blockID username isApproved tsRej tsApp tsHib =
      (s, Except.error (ApiErr.notFound "No pending block with this id or block has not been activated")) := by
  unfold approveBlock
  have hdup : s.blocks.find? (fun b =>
      decide (b.docId = blockID ∧ (username ∈ b.approvedBy ∨ username ∈ b.rejectedBy))) = none := by
    rw [List.find?_eq_none]
    intro x hx
    simp only [decide_eq_true_eq]
    exact hnodup x hx
  rw [hdup]
  dsimp only
  rw [findAndUpdate_of_none _ _ s.blocks (fun x hx => by
    simp only [decide_eq_false_iff_not]
    exact hnp x hx)]

/-! ### The inductive invariant -/

/-- A block in a staging status (Hibernating, Pending, or the transient
Approved). -/
def isStaging (b : Block) : Prop :=
  b.status = BStatus.hibernating ∨ b.status = BStatus.pending ∨ b.status = BStatus.approved

/-- The inductive invariant of reachable stores. -/
structure Inv (s : Store) : Prop where
  docIdLt : ∀ b ∈ s.blocks, b.docId < s.nextId
  docNodup : (s.blocks.map Block.docId).Nodup
  chainEmpty : inChainBlocks s = [] → s.blocks = []
  chainIds : (inChainBlocks s).map Block.blockId = List.range (inChainBlocks s).length
  linked : ∀ b ∈ inChainBlocks s, ∀ i, b.blockId = i + 1 →
    ∀ c ∈ inChainBlocks s, c.blockId = i → b.prevHash = c.hash
  stagingAfter : List.Pairwise (fun a b => isStaging a → b.status ≠ BStatus.inChain) s.blocks
  stagingUnique : List.Pairwise (fun a b => ¬(isStaging a ∧ isStaging b)) s.blocks
  pendingLen : ∀ b ∈ s.blocks, b.status = BStatus.pending → b.records.length = MAX_RECORD
  voteNodup : ∀ b ∈ s.blocks, (b.approvedBy ++ b.rejectedBy).Nodup

theorem inv_init : Inv initStore := by
  refine ⟨?_, ?_, ?_, ?_, ?_, ?_, ?_, ?_, ?_⟩ <;> simp [initStore, inChainBlocks]

/-- Adding a vote by a fresh validator keeps the combined vote list
duplicate-free. -/
theorem voteAdd_nodup (d : Block) (u : String) (i : Bool)
    (h : (d.approvedBy ++ d.rejectedBy).Nodup)
    (hnA : u ∉ d.approvedBy) (hnR : u ∉ d.rejectedBy) :
    ((voteAdd d u i).approvedBy ++ (voteAdd d u i).rejectedBy).Nodup := by
  have hu : u ∉ d.approvedBy ++ d.rejectedBy := by
    rw [List.mem_append]
    rintro (hmem | hmem)
    · exact hnA hmem
    · exact hnR hmem
  cases i
  · have e1 : voteAdd d u false = { d with rejectedBy := d.rejectedBy ++ [u] } := by
      unfold voteAdd
      rw [if_neg (by simp), addToSet_of_not_mem _ _ hnR]
    rw [e1]
    show (d.approvedBy ++ (d.rejectedBy ++ [u])).Nodup
    rw [← List.append_assoc, List.nodup_middle, List.nodup_cons]
    exact ⟨by simpa using hu, by simpa using h⟩
  · have e2 : voteAdd d u true = { d with approvedBy := d.approvedBy ++ [u] } := by
      unfold voteAdd
      rw [if_pos rfl, addToSet_of_not_mem _ _ hnA]
    rw [e2]
    show ((d.approvedBy ++ [u]) ++ d.rejectedBy).Nodup
    rw [List.append_assoc]
    show (d.approvedBy ++ (u :: d.rejectedBy)).Nodup
    rw [List.nodup_middle, List.nodup_cons]
    exact ⟨hu, h⟩

/-- The invariant depends only on the block collection and the id counter. -/
theorem inv_transfer {s s2 : Store} (h : Inv s)
    (hb : s2.blocks = s.blocks) (hn : s2.nextId = s.nextId) : Inv s2 := by
  obtain ⟨b1, t1, u1, p1, us1, n1⟩ := s
  obtain ⟨b2, t2, u2, p2, us2, n2⟩ := s2
  dsimp only at hb hn
  subst hb
  subst hn
  exact ⟨h.docIdLt, h.docNodup, h.chainEmpty, h.chainIds, h.linked, h.stagingAfter,
    h.stagingUnique, h.pendingLen, h.voteNodup⟩

theorem hib_append_inv (s : Store) (ts : String) (rs : List TxRecord)
    (hInv : Inv s)
    (hchain : inChainBlocks s ≠ [])
    (hnostaging : ∀ b ∈ s.blocks, ¬ isStaging b) :
    Inv { s with
      blocks := s.blocks ++ [hibBlock s.nextId rs ts]
      nextId := s.nextId + 1 } := by
  have hhb : (hibBlock s.nextId rs ts).status = BStatus.hibernating := rfl
  have hchaineq :
      inChainBlocks { s with
        blocks := s.blocks ++ [hibBlock s.nextId rs ts]
        nextId := s.nextId + 1 } = inChainBlocks s := by
    show (s.blocks ++ [hibBlock s.nextId rs ts]).filter _ = _
    rw [List.filter_append]
    have : [hibBlock s.nextId rs ts].filter (fun b => decide (b.status = BStatus.inChain)) = [] := by
      simp [hibBlock]
    rw [this, List.append_nil]
    rfl
  have hlt := hInv.docIdLt
  have hnd := hInv.docNodup
  refine ⟨?_, ?_, ?_, ?_, ?_, ?_, ?_, ?_, ?_⟩
  · intro b hb
    rcases List.mem_append.1 hb with h1 | h2
    · exact Nat.lt_succ_of_lt (hlt b h1)
    · rw [List.mem_singleton] at h2
      subst h2
      exact Nat.lt_succ_self _
  · show ((s.blocks ++ [hibBlock s.nextId rs ts]).map Block.docId).Nodup
    rw [List.map_append]
    show (s.blocks.map Block.docId ++ s.nextId :: []).Nodup
    rw [List.nodup_middle, List.nodup_cons]
    constructor
    · intro hmem
      rw [List.append_nil, List.mem_map] at hmem
      obtain ⟨b, hb, hbid⟩ := hmem
      have := hlt b hb
      omega
    · rw [List.append_nil]
      exact hnd
  · rw [hchaineq]
    intro h
    exact absurd h hchain
  · rw [hchaineq]
    exact hInv.chainIds
  · rw [hchaineq]
    exact hInv.linked
  · exact pairwise_snoc hInv.stagingAfter (fun a ha h => by rw [hhb]; simp)
  · exact pairwise_snoc hInv.stagingUnique (fun a ha h => hnostaging a ha h.1)
  · intro b hb hp
    rcases List.mem_append.1 hb with h1 | h2
    · exact hInv.pendingLen b h1 hp
    · rw [List.mem_singleton] at h2
      subst h2
      exact absurd hp (by rw [hhb]; simp)
  · intro b hb
    rcases List.mem_append.1 hb with h1 | h2
    · exact hInv.voteNodup b h1
    · rw [List.mem_singleton] at h2
      subst h2
      simp [hibBlock]

theorem createHibernateBlock_inv (s : Store) (ts : String) (hInv : Inv s)
    (hchain : inChainBlocks s ≠ [])
    (hnostaging : ∀ b ∈ s.blocks, ¬ isStaging b) :
    Inv (createHibernateBlock s ts) := by
  unfold createHibernateBlock
  cases hp : s.approvedPool with
  | nil =>
    exact inv_transfer (hib_append_inv s ts [] hInv hchain hnostaging) rfl rfl
  | cons d0 rest =>
    cases rest with
    | nil => exact inv_transfer hInv rfl rfl
    | cons d1 rest2 =>
      exact inv_transfer (hib_append_inv s ts [d0.records, d1.records] hInv hchain hnostaging)
        rfl rfl

/-- Everything the vote pipeline needs about a reachable store holding a
Pending block. -/
theorem vote_context (s : Store) (hInv : Inv s) (d : Block) (hmem : d ∈ s.blocks)
    (hstat : d.status = BStatus.pending) :
    ∃ pre post top, s.blocks = pre ++ d :: post ∧
      (∀ x ∈ pre, x.docId ≠ d.docId) ∧ (∀ x ∈ post, x.docId ≠ d.docId) ∧
      (∀ a ∈ pre, ¬ isStaging a) ∧ (∀ x ∈ post, ¬ isStaging x) ∧
      post.filter inChainP = [] ∧
      inChainBlocks s = pre.filter inChainP ∧
      maxByBlockId (pre.filter inChainP ++ post.filter inChainP) = some top ∧
      top.blockId + 1 = (inChainBlocks s).length := by
  obtain ⟨pre, post, hdec, hpre, hpost⟩ := decompose_by_docId s.blocks d hInv.docNodup hmem
  have hdstag : isStaging d := Or.inr (Or.inl hstat)
  have hsu := hInv.stagingUnique
  rw [hdec] at hsu
  have hsa := hInv.stagingAfter
  rw [hdec] at hsa
  obtain ⟨hsu1, hsu2⟩ := pairwise_middle_facts hsu
  obtain ⟨hsa1, hsa2⟩ := pairwise_middle_facts hsa
  have hprestag : ∀ a ∈ pre, ¬ isStaging a := fun a ha sa => hsu1 a ha ⟨sa, hdstag⟩
  have hpoststag : ∀ x ∈ post, ¬ isStaging x := fun x hx sx => hsu2 x hx ⟨hdstag, sx⟩
  have hpostchain : post.filter inChainP = [] := by
    rw [List.filter_eq_nil_iff]
    intro x hx
    simp only [inChainP, decide_eq_true_eq]
    exact hsa2 x hx hdstag
  have hchain : inChainBlocks s = pre.filter inChainP := by
    show s.blocks.filter _ = _
    rw [hdec]
    rw [show (fun b => decide (b.status = BStatus.inChain)) = inChainP from rfl]
    rw [filter_middle_not inChainP pre post d (by simp [inChainP, hstat]), hpostchain,
      List.append_nil]
  have hne : inChainBlocks s ≠ [] := by
    intro h
    have := hInv.chainEmpty h
    rw [hdec] at this
    exact absurd this (by simp)
  obtain ⟨top, htop⟩ := maxByBlockId_isSome (inChainBlocks s) hne
  have htop2 : maxByBlockId (pre.filter inChainP ++ post.filter inChainP) = some top := by
    rw [hpostchain, List.append_nil, ← hchain]
    exact htop
  refine ⟨pre, post, top, hdec, hpre, hpost, hprestag, hpoststag, hpostchain, hchain, htop2, ?_⟩
  have hids := hInv.chainIds
  have hmemtop := maxByBlockId_mem _ _ htop
  have hge := maxByBlockId_ge _ _ htop
  have htopmem : top.blockId ∈ List.range (inChainBlocks s).length := by
    rw [← hids]
    exact List.mem_map_of_mem _ hmemtop
  rw [List.mem_range] at htopmem
  have hlen1 : 1 ≤ (inChainBlocks s).length := by
    cases hc : inChainBlocks s with
    | nil => exact absurd hc hne
    | cons a l => simp
  have hklem : (inChainBlocks s).length - 1 ∈ List.range (inChainBlocks s).length := by
    rw [List.mem_range]
    omega
  rw [← hids, List.mem_map] at hklem
  obtain ⟨c, hcmem, hcid⟩ := hklem
  have := hge c hcmem
  omega

theorem commitBlockF_not_staging (H : String → String) (J : List TxRecord → String)
    (d1 top : Block) (ts : String) : ¬ isStaging (commitBlockF H J d1 top ts) := by
  rintro (h | h | h) <;> exact BStatus.noConfusion h

theorem rejectBlockF_not_staging (d1 : Block) (ts : String) :
    ¬ isStaging (rejectBlockF d1 ts) := by
  rintro (h | h | h) <;> exact BStatus.noConfusion h

/-- Invariant preservation for the store produced by a commit, before the new
staging block is created. -/
theorem commit_store_inv (H : String → String) (J : List TxRecord → String)
    (s : Store) (hInv : Inv s) (d top : Block) (pre post : List Block)
    (username : String) (isApproved : Bool) (tsApp : String)
    (hdec : s.blocks = pre ++ d :: post)
    (hstat : d.status = BStatus.pending)
    (hnA : username ∉ d.approvedBy) (hnR : username ∉ d.rejectedBy)
    (hprestag : ∀ a ∈ pre, ¬ isStaging a) (hpoststag : ∀ x ∈ post, ¬ isStaging x)
    (hpostchain : post.filter inChainP = [])
    (hchain : inChainBlocks s = pre.filter inChainP)
    (htopmem : top ∈ pre.filter inChainP)
    (hk : top.blockId + 1 = (pre.filter inChainP).length)
    (s2 : Store)
    (hs2b : s2.blocks =
      pre ++ commitBlockF H J (voteAdd d username isApproved) top tsApp :: post)
    (hs2n : s2.nextId = s.nextId) :
    Inv s2 ∧ inChainBlocks s2 ≠ [] ∧ (∀ b ∈ s2.blocks, ¬ isStaging b) := by
  have hdmem : d ∈ s.blocks := by rw [hdec]; exact List.mem_append_right _ (List.mem_cons_self _ _)
  have hcFid : (commitBlockF H J (voteAdd d username isApproved) top tsApp).docId = d.docId := by
    show (voteAdd d username isApproved).docId = d.docId
    exact voteAdd_docId d username isApproved
  have hcFnostag := commitBlockF_not_staging H J (voteAdd d username isApproved) top tsApp
  have hchain2 : inChainBlocks s2 =
      pre.filter inChainP ++ [commitBlockF H J (voteAdd d username isApproved) top tsApp] := by
    show s2.blocks.filter _ = _
    rw [hs2b]
    rw [show (fun b => decide (b.status = BStatus.inChain)) = inChainP from rfl]
    rw [List.filter_append, List.filter_cons_of_pos (by simp [inChainP]; rfl), hpostchain]
  have hids : (pre.filter inChainP).map Block.blockId =
      List.range (pre.filter inChainP).length := by
    have := hInv.chainIds
    rw [hchain] at this
    exact this
  have hcFbid : (commitBlockF H J (voteAdd d username isApproved) top tsApp).blockId =
      top.blockId + 1 := rfl
  refine ⟨⟨?_, ?_, ?_, ?_, ?_, ?_, ?_, ?_, ?_⟩, ?_, ?_⟩
  · intro b hb
    rw [hs2b] at hb
    rw [hs2n]
    rcases List.mem_append.1 hb with h1 | h2
    · exact hInv.docIdLt b (by rw [hdec]; exact List.mem_append_left _ h1)
    · rcases List.mem_cons.1 h2 with rfl | h3
      · rw [hcFid]; exact hInv.docIdLt d hdmem
      · exact hInv.docIdLt b (by rw [hdec]; exact List.mem_append_right _ (List.mem_cons_of_mem _ h3))
  · show (s2.blocks.map Block.docId).Nodup
    rw [hs2b, List.map_append, List.map_cons, hcFid]
    have : (pre.map Block.docId ++ d.docId :: post.map Block.docId) = s.blocks.map Block.docId := by
      rw [hdec, List.map_append, List.map_cons]
    rw [this]
    exact hInv.docNodup
  · rw [hchain2]
    intro h
    exact absurd h (by simp)
  · rw [hchain2, List.map_append, List.map_cons, hcFbid, hids, hk]
    simp [List.range_succ]
  · intro b hbmem i hbi c hcmem hci
    rw [hchain2] at hbmem hcmem
    have hnodupids : ((pre.filter inChainP).map Block.blockId).Nodup := by
      rw [hids]; exact List.nodup_range _
    rcases List.mem_append.1 hbmem with hb1 | hb2
    · rcases List.mem_append.1 hcmem with hc1 | hc2
      · have := hInv.linked
        rw [hchain] at this
        exact this b hb1 i hbi c hc1 hci
      · rw [List.mem_singleton] at hc2
        subst hc2
        exfalso
        have hblt : b.blockId ∈ List.range (pre.filter inChainP).length := by
          rw [← hids]; exact List.mem_map_of_mem _ hb1
        rw [List.mem_range] at hblt
        rw [hcFbid] at hci
        omega
    · rw [List.mem_singleton] at hb2
      subst hb2
      rw [hcFbid] at hbi
      rcases List.mem_append.1 hcmem with hc1 | hc2
      · have hctop : c = top :=
          List.inj_on_of_nodup_map hnodupids hc1 htopmem (by omega)
        subst hctop
        rfl
      · rw [List.mem_singleton] at hc2
        subst hc2
        exfalso
        rw [hcFbid] at hci
        omega
  · have hsa := hInv.stagingAfter
    rw [hdec] at hsa
    have := pairwise_middle_congr hsa
      (commitBlockF H J (voteAdd d username isApproved) top tsApp)
      (fun a ha _ sa => absurd sa (hprestag a ha))
      (fun x hx _ sf => absurd sf hcFnostag)
    rw [hs2b]
    exact this
  · have hsu := hInv.stagingUnique
    rw [hdec] at hsu
    have := pairwise_middle_congr hsu
      (commitBlockF H J (voteAdd d username isApproved) top tsApp)
      (fun a ha _ h2 => hcFnostag h2.2)
      (fun x hx _ h2 => hcFnostag h2.1)
    rw [hs2b]
    exact this
  · intro b hb hp
    rw [hs2b] at hb
    rcases List.mem_append.1 hb with h1 | h2
    · exact hInv.pendingLen b (by rw [hdec]; exact List.mem_append_left _ h1) hp
    · rcases List.mem_cons.1 h2 with rfl | h3
      · exact absurd hp (by intro hq; exact BStatus.noConfusion hq)
      · exact hInv.pendingLen b
          (by rw [hdec]; exact List.mem_append_right _ (List.mem_cons_of_mem _ h3)) hp
  · intro b hb
    rw [hs2b] at hb
    rcases List.mem_append.1 hb with h1 | h2
    · exact hInv.voteNodup b (by rw [hdec]; exact List.mem_append_left _ h1)
    · rcases List.mem_cons.1 h2 with rfl | h3
      · show ((voteAdd d username isApproved).approvedBy ++
            (voteAdd d username isApproved).rejectedBy).Nodup
        exact voteAdd_nodup d username isApproved (hInv.voteNodup d hdmem) hnA hnR
      · exact hInv.voteNodup b
          (by rw [hdec]; exact List.mem_append_right _ (List.mem_cons_of_mem _ h3))
  · rw [hchain2]
    simp
  · intro b hb
    rw [hs2b] at hb
    rcases List.mem_append.1 hb with h1 | h2
    · exact hprestag b h1
    · rcases List.mem_cons.1 h2 with rfl | h3
      · exact hcFnostag
      · exact hpoststag b h3

/-- Invariant preservation for the store produced by a rejection, before the
new staging block is created. -/
theorem reject_store_inv (s : Store) (hInv : Inv s) (d : Block) (pre post : List Block)
    (username : String) (isApproved : Bool) (tsRej : String)
    (hdec : s.blocks = pre ++ d :: post)
    (hstat : d.status = BStatus.pending)
    (hnA : username ∉ d.approvedBy) (hnR : username ∉ d.rejectedBy)
    (hprestag : ∀ a ∈ pre, ¬ isStaging a) (hpoststag : ∀ x ∈ post, ¬ isStaging x)
    (hpostchain : post.filter inChainP = [])
    (hchain : inChainBlocks s = pre.filter inChainP)
    (hne : inChainBlocks s ≠ [])
    (s2 : Store)
    (hs2b : s2.blocks = pre ++ rejectBlockF (voteAdd d username isApproved) tsRej :: post)
    (hs2n : s2.nextId = s.nextId) :
    Inv s2 ∧ inChainBlocks s2 ≠ [] ∧ (∀ b ∈ s2.blocks, ¬ isStaging b) := by
  have hdmem : d ∈ s.blocks := by rw [hdec]; exact List.mem_append_right _ (List.mem_cons_self _ _)
  have hrFid : (rejectBlockF (voteAdd d username isApproved) tsRej).docId = d.docId := by
    show (voteAdd d username isApproved).docId = d.docId
    exact voteAdd_docId d username isApproved
  have hrFnostag := rejectBlockF_not_staging (voteAdd d username isApproved) tsRej
  have hchain2 : inChainBlocks s2 = pre.filter inChainP := by
    show s2.blocks.filter _ = _
    rw [hs2b]
    rw [show (fun b => decide (b.status = BStatus.inChain)) = inChainP from rfl]
    rw [filter_middle_not inChainP pre post _ (by simp [inChainP]; intro hq; exact BStatus.noConfusion hq),
      hpostchain, List.append_nil]
  refine ⟨⟨?_, ?_, ?_, ?_, ?_, ?_, ?_, ?_, ?_⟩, ?_, ?_⟩
  · intro b hb
    rw [hs2b] at hb
    rw [hs2n]
    rcases List.mem_append.1 hb with h1 | h2
    · exact hInv.docIdLt b (by rw [hdec]; exact List.mem_append_left _ h1)
    · rcases List.mem_cons.1 h2 with rfl | h3
      · rw [hrFid]; exact hInv.docIdLt d hdmem
      · exact hInv.docIdLt b (by rw [hdec]; exact List.mem_append_right _ (List.mem_cons_of_mem _ h3))
  · show (s2.blocks.map Block.docId).Nodup
    rw [hs2b, List.map_append, List.map_cons, hrFid]
    have : (pre.map Block.docId ++ d.docId :: post.map Block.docId) = s.blocks.map Block.docId := by
      rw [hdec, List.map_append, List.map_cons]
    rw [this]
    exact hInv.docNodup
  · rw [hchain2, ← hchain]
    intro h
    exact absurd h hne
  · rw [hchain2, ← hchain]
    exact hInv.chainIds
  · rw [hchain2, ← hchain]
    exact hInv.linked
  · have hsa := hInv.stagingAfter
    rw [hdec] at hsa
    have := pairwise_middle_congr hsa (rejectBlockF (voteAdd d username isApproved) tsRej)
      (fun a ha _ sa => absurd sa (hprestag a ha))
      (fun x hx _ sf => absurd sf hrFnostag)
    rw [hs2b]
    exact this
  · have hsu := hInv.stagingUnique
    rw [hdec] at hsu
    have := pairwise_middle_congr hsu (rejectBlockF (voteAdd d username isApproved) tsRej)
      (fun a ha _ h2 => hrFnostag h2.2)
      (fun x hx _ h2 => hrFnostag h2.1)
    rw [hs2b]
    exact this
  · intro b hb hp
    rw [hs2b] at hb
    rcases List.mem_append.1 hb with h1 | h2
    · exact hInv.pendingLen b (by rw [hdec]; exact List.mem_append_left _ h1) hp
    · rcases List.mem_cons.1 h2 with rfl | h3
      · exact absurd hp (by intro hq; exact BStatus.noConfusion hq)
      · exact hInv.pendingLen b
          (by rw [hdec]; exact List.mem_append_right _ (List.mem_cons_of_mem _ h3)) hp
  · intro b hb
    rw [hs2b] at hb
    rcases List.mem_append.1 hb with h1 | h2
    · exact hInv.voteNodup b (by rw [hdec]; exact List.mem_append_left _ h1)
    · rcases List.mem_cons.1 h2 with rfl | h3
      · show ((voteAdd d username isApproved).approvedBy ++
            (voteAdd d username isApproved).rejectedBy).Nodup
        exact voteAdd_nodup d username isApproved (hInv.voteNodup d hdmem) hnA hnR
      · exact hInv.voteNodup b
          (by rw [hdec]; exact List.mem_append_right _ (List.mem_cons_of_mem _ h3))
  · rw [hchain2, ← hchain]
    exact hne
  · intro b hb
    rw [hs2b] at hb
    rcases List.mem_append.1 hb with h1 | h2
    · exact hprestag b h1
    · rcases List.mem_cons.1 h2 with rfl | h3
      · exact hrFnostag
      · exact hpoststag b h3

/-- Invariant preservation when a vote is recorded without crossing a
threshold. -/
theorem nothing_store_inv (s : Store) (hInv : Inv s) (d : Block) (pre post : List Block)
    (username : String) (isApproved : Bool)
    (hdec : s.blocks = pre ++ d :: post)
    (hstat : d.status = BStatus.pending)
    (hnA : username ∉ d.approvedBy) (hnR : username ∉ d.rejectedBy)
    (s2 : Store)
    (hs2b : s2.blocks = pre ++ voteAdd d username isApproved :: post)
    (hs2n : s2.nextId = s.nextId) :
    Inv s2 := by
  have hdmem : d ∈ s.blocks := by rw [hdec]; exact List.mem_append_right _ (List.mem_cons_self _ _)
  have hdstag : isStaging d := Or.inr (Or.inl hstat)
  have hd1stat : (voteAdd d username isApproved).status = BStatus.pending := by
    rw [voteAdd_status]; exact hstat
  have hd1stag : isStaging (voteAdd d username isApproved) := Or.inr (Or.inl hd1stat)
  have hd1id : (voteAdd d username isApproved).docId = d.docId := voteAdd_docId d username isApproved
  have hchain2 : inChainBlocks s2 = inChainBlocks s := by
    show s2.blocks.filter _ = s.blocks.filter _
    rw [hs2b, hdec]
    rw [show (fun b => decide (b.status = BStatus.inChain)) = inChainP from rfl]
    rw [filter_middle_not inChainP pre post _ (by simp [inChainP]; rw [hd1stat]; intro hq; exact BStatus.noConfusion hq),
      filter_middle_not inChainP pre post _ (by simp [inChainP, hstat])]
  refine ⟨?_, ?_, ?_, ?_, ?_, ?_, ?_, ?_, ?_⟩
  · intro b hb
    rw [hs2b] at hb
    rw [hs2n]
    rcases List.mem_append.1 hb with h1 | h2
    · exact hInv.docIdLt b (by rw [hdec]; exact List.mem_append_left _ h1)
    · rcases List.mem_cons.1 h2 with rfl | h3
      · rw [hd1id]; exact hInv.docIdLt d hdmem
      · exact hInv.docIdLt b (by rw [hdec]; exact List.mem_append_right _ (List.mem_cons_of_mem _ h3))
  · show (s2.blocks.map Block.docId).Nodup
    rw [hs2b, List.map_append, List.map_cons, hd1id]
    have : (pre.map Block.docId ++ d.docId :: post.map Block.docId) = s.blocks.map Block.docId := by
      rw [hdec, List.map_append, List.map_cons]
    rw [this]
    exact hInv.docNodup
  · rw [hchain2]
    intro h
    have := hInv.chainEmpty h
    rw [hdec] at this
    exact absurd this (by simp)
  · rw [hchain2]
    exact hInv.chainIds
  · rw [hchain2]
    exact hInv.linked
  · have hsa := hInv.stagingAfter
    rw [hdec] at hsa
    have := pairwise_middle_congr hsa (voteAdd d username isApproved)
      (fun a ha _ _ => by rw [hd1stat]; intro hq; exact BStatus.noConfusion hq)
      (fun x hx hR _ => hR hdstag)
    rw [hs2b]
    exact this
  · have hsu := hInv.stagingUnique
    rw [hdec] at hsu
    have := pairwise_middle_congr hsu (voteAdd d username isApproved)
      (fun a ha hR h2 => hR ⟨h2.1, hdstag⟩)
      (fun x hx hR h2 => hR ⟨hdstag, h2.2⟩)
    rw [hs2b]
    exact this
  · intro b hb hp
    rw [hs2b] at hb
    rcases List.mem_append.1 hb with h1 | h2
    · exact hInv.pendingLen b (by rw [hdec]; exact List.mem_append_left _ h1) hp
    · rcases List.mem_cons.1 h2 with rfl | h3
      · show (voteAdd d username isApproved).records.length = MAX_RECORD
        rw [voteAdd_records]
        exact hInv.pendingLen d hdmem hstat
      · exact hInv.pendingLen b
          (by rw [hdec]; exact List.mem_append_right _ (List.mem_cons_of_mem _ h3)) hp
  · intro b hb
    rw [hs2b] at hb
    rcases List.mem_append.1 hb with h1 | h2
    · exact hInv.voteNodup b (by rw [hdec]; exact List.mem_append_left _ h1)
    · rcases List.mem_cons.1 h2 with rfl | h3
      · exact voteAdd_nodup d username isApproved (hInv.voteNodup d hdmem) hnA hnR
      · exact hInv.voteNodup b
          (by rw [hdec]; exact List.mem_append_right _ (List.mem_cons_of_mem _ h3))

/-- Invariant preservation for a successful block activation. -/
theorem activate_store_inv (s : Store) (hInv : Inv s) (b : Block) (pre post : List Block)
    (ts : String)
    (hdec : s.blocks = pre ++ b :: post)
    (hstat : b.status = BStatus.hibernating)
    (hlen : b.records.length = MAX_RECORD)
    (s2 : Store)
    (hs2b : s2.blocks = pre ++ { b with status := BStatus.pending, timestamp := ts } :: post)
    (hs2n : s2.nextId = s.nextId) :
    Inv s2 := by
  have hbmem : b ∈ s.blocks := by rw [hdec]; exact List.mem_append_right _ (List.mem_cons_self _ _)
  have hbstag : isStaging b := Or.inl hstat
  have hb2stag : isStaging { b with status := BStatus.pending, timestamp := ts } :=
    Or.inr (Or.inl rfl)
  have hchain2 : inChainBlocks s2 = inChainBlocks s := by
    show s2.blocks.filter _ = s.blocks.filter _
    rw [hs2b, hdec]
    rw [show (fun b => decide (b.status = BStatus.inChain)) = inChainP from rfl]
    rw [filter_middle_not inChainP pre post _ (by simp [inChainP]),
      filter_middle_not inChainP pre post _ (by simp [inChainP, hstat])]
  refine ⟨?_, ?_, ?_, ?_, ?_, ?_, ?_, ?_, ?_⟩
  · intro c hc
    rw [hs2b] at hc
    rw [hs2n]
    rcases List.mem_append.1 hc with h1 | h2
    · exact hInv.docIdLt c (by rw [hdec]; exact List.mem_append_left _ h1)
    · rcases List.mem_cons.1 h2 with rfl | h3
      · exact hInv.docIdLt b hbmem
      · exact hInv.docIdLt c (by rw [hdec]; exact List.mem_append_right _ (List.mem_cons_of_mem _ h3))
  · show (s2.blocks.map Block.docId).Nodup
    rw [hs2b, List.map_append, List.map_cons]
    have heq : (pre.map Block.docId ++ b.docId :: post.map Block.docId) = s.blocks.map Block.docId := by
      rw [hdec, List.map_append, List.map_cons]
    show (pre.map Block.docId ++ b.docId :: post.map Block.docId).Nodup
    rw [heq]
    exact hInv.docNodup
  · rw [hchain2]
    intro h
    have := hInv.chainEmpty h
    rw [hdec] at this
    exact absurd this (by simp)
  · rw [hchain2]
    exact hInv.chainIds
  · rw [hchain2]
    exact hInv.linked
  · have hsa := hInv.stagingAfter
    rw [hdec] at hsa
    have := pairwise_middle_congr hsa { b with status := BStatus.pending, timestamp := ts }
      (fun a ha _ _ => by intro hq; exact BStatus.noConfusion hq)
      (fun x hx hR _ => hR hbstag)
    rw [hs2b]
    exact this
  · have hsu := hInv.stagingUnique
    rw [hdec] at hsu
    have := pairwise_middle_congr hsu { b with status := BStatus.pending, timestamp := ts }
      (fun a ha hR h2 => hR ⟨h2.1, hbstag⟩)
      (fun x hx hR h2 => hR ⟨hbstag, h2.2⟩)
    rw [hs2b]
    exact this
  · intro c hc hp
    rw [hs2b] at hc
    rcases List.mem_append.1 hc with h1 | h2
    · exact hInv.pendingLen c (by rw [hdec]; exact List.mem_append_left _ h1) hp
    · rcases List.mem_cons.1 h2 with rfl | h3
      · exact hlen
      · exact hInv.pendingLen c
          (by rw [hdec]; exact List.mem_append_right _ (List.mem_cons_of_mem _ h3)) hp
  · intro c hc
    rw [hs2b] at hc
    rcases List.mem_append.1 hc with h1 | h2
    · exact hInv.voteNodup c (by rw [hdec]; exact List.mem_append_left _ h1)
    · rcases List.mem_cons.1 h2 with rfl | h3
      · exact hInv.voteNodup b hbmem
      · exact hInv.voteNodup c
          (by rw [hdec]; exact List.mem_append_right _ (List.mem_cons_of_mem _ h3))

theorem activate_step_inv (s : Store) (hInv : Inv s) (blockID : Nat) (ts : String) :
    Inv ((activateBlock s blockID ts).1) := by
  unfold activateBlock
  cases hf : s.blocks.find? (fun c =>
      decide (c.docId = blockID ∧ c.status = BStatus.hibernating)) with
  | none => exact hInv
  | some b =>
    dsimp only
    have hbmem : b ∈ s.blocks := List.mem_of_find?_eq_some hf
    have hprop := List.find?_some hf
    rw [decide_eq_true_eq] at hprop
    obtain ⟨hbid, hbstat⟩ := hprop
    by_cases hlen : b.records.length = MAX_RECORD
    · rw [if_pos hlen]
      obtain ⟨pre, post, hdec, hpre, hpost⟩ := decompose_by_docId s.blocks b hInv.docNodup hbmem
      rw [hdec, findAndUpdate_match (fun c => decide (c.docId = blockID))
        (fun c => { c with status := BStatus.pending, timestamp := ts }) pre b post
        (fun x hx => by
          simp only [decide_eq_false_iff_not]
          rw [← hbid]
          exact hpre x hx)
        (by simp only [decide_eq_true_eq]; exact hbid)]
      exact activate_store_inv s hInv b pre post ts hdec hbstat hlen _ rfl rfl
    · rw [if_neg hlen]
      exact hInv

/-- A store holding a single genesis-shaped inChain block satisfies the
invariant and feeds `createHibernateBlock_inv`. -/
theorem single_genesis_inv (s2 : Store) (g : Block)
    (hb : s2.blocks = [g]) (hgid : g.docId + 1 ≤ s2.nextId) (hgbid : g.blockId = 0)
    (hgstat : g.status = BStatus.inChain)
    (hgA : g.approvedBy = []) (hgR : g.rejectedBy = []) :
    Inv s2 ∧ inChainBlocks s2 ≠ [] ∧ (∀ b ∈ s2.blocks, ¬ isStaging b) := by
  have hch : inChainBlocks s2 = [g] := by
    show s2.blocks.filter _ = _
    rw [hb, List.filter_cons_of_pos (by simp [hgstat])]
    rfl
  refine ⟨⟨?_, ?_, ?_, ?_, ?_, ?_, ?_, ?_, ?_⟩, ?_, ?_⟩
  · intro b hbm
    rw [hb, List.mem_singleton] at hbm
    subst hbm
    omega
  · rw [hb]
    simp
  · rw [hch]
    intro h
    exact absurd h (by simp)
  · rw [hch, List.map_cons, hgbid]
    rfl
  · intro b hbm i hbi c hcm hci
    rw [hch, List.mem_singleton] at hbm
    subst hbm
    rw [hgbid] at hbi
    exact absurd hbi (by omega)
  · rw [hb]
    exact List.pairwise_singleton _ _
  · rw [hb]
    exact List.pairwise_singleton _ _
  · intro b hbm hp
    rw [hb, List.mem_singleton] at hbm
    subst hbm
    exact BStatus.noConfusion (hgstat.symm.trans hp)
  · intro b hbm
    rw [hb, List.mem_singleton] at hbm
    subst hbm
    rw [hgA, hgR]
    simp
  · rw [hch]
    simp
  · intro b hbm
    rw [hb, List.mem_singleton] at hbm
    subst hbm
    rintro (h | h | h) <;> exact BStatus.noConfusion (hgstat.symm.trans h)

theorem getChain_step_inv (H : String → String) (J : List TxRecord → String)
    (s : Store) (hInv : Inv s) (ts1 ts2 : String) :
    Inv ((getBlockchain H J s ts1 ts2).1) := by
  unfold getBlockchain
  by_cases hc : (inChainBlocks s).length = 0
  · rw [if_pos hc]
    have hchainnil : inChainBlocks s = [] := List.length_eq_zero.1 hc
    have hblocks : s.blocks = [] := hInv.chainEmpty hchainnil
    dsimp only
    have hS1b : ((createGenesisBlock H J s ts1).1).blocks =
        [{ docId := s.nextId, blockId := 0, prevHash := "",
           hash := computeBlockHash H J 0 "" ts1 [], timestamp := ts1,
           status := BStatus.inChain, records := [], approvedBy := [], rejectedBy := [] }] := by
      unfold createGenesisBlock
      dsimp only
      rw [hblocks, List.nil_append]
    obtain ⟨hi, hc2, hns⟩ := single_genesis_inv ((createGenesisBlock H J s ts1).1) _ hS1b
      (by unfold createGenesisBlock; dsimp only; omega) rfl rfl rfl rfl
    exact createHibernateBlock_inv _ ts2 hi hc2 hns
  · rw [if_neg hc]
    exact hInv

theorem vote_step_inv (H : String → String) (J : List TxRecord → String)
    (s : Store) (hInv : Inv s) (blockID : Nat) (username : String) (isApproved : Bool)
    (tsRej tsApp tsHib : String) :
    Inv ((approveBlock H J s blockID username isApproved tsRej tsApp tsHib).1) := by
  by_cases hex : ∃ d ∈ s.blocks, d.docId = blockID
  · obtain ⟨d, hdmem, hdid⟩ := hex
    have huniq : ∀ x ∈ s.blocks, x.docId = blockID → x = d := fun x hx hxid =>
      List.inj_on_of_nodup_map hInv.docNodup hx hdmem (by rw [hxid, hdid])
    by_cases hvoted : username ∈ d.approvedBy ∨ username ∈ d.rejectedBy
    · rw [approveBlock_dup H J s blockID username isApproved tsRej tsApp tsHib d hdmem hdid hvoted]
      exact hInv
    · push_neg at hvoted
      obtain ⟨hnA, hnR⟩ := hvoted
      by_cases hpend : d.status = BStatus.pending
      · obtain ⟨pre, post, top, hdec, hpre, hpost, hprestag, hpoststag, hpostchain, hchain,
          htop, hk⟩ := vote_context s hInv d hdmem hpend
        have hpreID : ∀ x ∈ pre, x.docId ≠ blockID := fun x hx => by
          rw [← hdid]
          exact hpre x hx
        have hpostID : ∀ x ∈ post, x.docId ≠ blockID := fun x hx => by
          rw [← hdid]
          exact hpost x hx
        rw [approveBlock_success H J s blockID username isApproved tsRej tsApp tsHib
          pre post d hdec hdid hpreID hpostID hpend hnA hnR]
        dsimp only
        have hd1stat : (voteAdd d username isApproved).status = BStatus.pending := by
          rw [voteAdd_status]
          exact hpend
        have hd1id : (voteAdd d username isApproved).docId = blockID := by
          rw [voteAdd_docId]
          exact hdid
        have hlen : (voteAdd d username isApproved).records.length = MAX_RECORD := by
          rw [voteAdd_records]
          exact hInv.pendingLen d hdmem hpend
        have hs1b : ({ s with blocks := pre ++ voteAdd d username isApproved :: post } : Store).blocks
            = pre ++ voteAdd d username isApproved :: post := rfl
        have hne : inChainBlocks s ≠ [] := by
          intro h
          have := hInv.chainEmpty h
          rw [hdec] at this
          exact absurd this (by simp)
        by_cases hA : pctGe (voteAdd d username isApproved).approvedBy.length
            (countValidators { s with blocks := pre ++ voteAdd d username isApproved :: post }) = true
        · rw [blockConsensus_commit H J _ _ blockID tsRej tsApp tsHib pre post top hs1b hd1id
            hpreID hd1stat (le_of_eq hlen.symm) htop hA]
          dsimp only
          have htopmem : top ∈ pre.filter inChainP := by
            have := maxByBlockId_mem _ _ htop
            rw [hpostchain, List.append_nil] at this
            exact this
          have hk2 : top.blockId + 1 = (pre.filter inChainP).length := by
            rw [hk, hchain]
          have hC := commit_store_inv H J s hInv d top pre post username
            isApproved tsApp hdec hpend hnA hnR hprestag hpoststag hpostchain hchain
            htopmem hk2
            { s with
              blocks := pre ++ commitBlockF H J (voteAdd d username isApproved) top tsApp :: post
              transactions := updateManyInBlock RecStatus.inChain s.transactions
              supplies := updateManyInBlock RecStatus.inChain s.supplies }
            rfl rfl
          apply createHibernateBlock_inv
          · exact hC.1
          · exact hC.2.1
          · exact hC.2.2
        · by_cases hR : pctGe (voteAdd d username isApproved).rejectedBy.length
              (countValidators { s with blocks := pre ++ voteAdd d username isApproved :: post }) = true
          · rw [blockConsensus_reject H J _ _ blockID tsRej tsApp tsHib pre post hs1b hd1id
              hpreID hd1stat (le_of_eq hlen.symm) (Bool.eq_false_iff.mpr hA) hR]
            dsimp only
            have hC := reject_store_inv s hInv d pre post username
              isApproved tsRej hdec hpend hnA hnR hprestag hpoststag hpostchain hchain hne
              { s with
                blocks := pre ++ rejectBlockF (voteAdd d username isApproved) tsRej :: post
                transactions := updateManyInBlock RecStatus.rejected s.transactions
                supplies := updateManyInBlock RecStatus.rejected s.supplies }
              rfl rfl
            apply createHibernateBlock_inv
            · exact hC.1
            · exact hC.2.1
            · exact hC.2.2
          · rw [blockConsensus_nothing H J _ _ blockID tsRej tsApp tsHib hd1stat
              (Bool.eq_false_iff.mpr hA) (Bool.eq_false_iff.mpr hR)]
            exact nothing_store_inv s hInv d pre post username isApproved hdec hpend hnA hnR
              _ rfl rfl
      · rw [approveBlock_noPending H J s blockID username isApproved tsRej tsApp tsHib
          (fun x hx hcon => by
            have hxd := huniq x hx hcon.1
            subst hxd
            rcases hcon.2 with hm | hm
            · exact hnA hm
            · exact hnR hm)
          (fun x hx hcon => by
            have hxd := huniq x hx hcon.1
            subst hxd
            exact hpend hcon.2)]
        exact hInv
  · push_neg at hex
    rw [approveBlock_noPending H J s blockID username isApproved tsRej tsApp tsHib
      (fun x hx hcon => hex x hx hcon.1)
      (fun x hx hcon => hex x hx hcon.1)]
    exact hInv

theorem step_inv (H : String → String) (J : List TxRecord → String)
    {s s2 : Store} (hInv : Inv s) (hstep : Step H J s s2) : Inv s2 := by
  cases hstep with
  | register u => exact inv_transfer hInv rfl rfl
  | addTransaction r => exact inv_transfer hInv rfl rfl
  | addSupply r => exact inv_transfer hInv rfl rfl
  | addApproved r =>
    refine ⟨?_, hInv.docNodup, hInv.chainEmpty, hInv.chainIds, hInv.linked,
      hInv.stagingAfter, hInv.stagingUnique, hInv.pendingLen, hInv.voteNodup⟩
    intro b hb
    exact Nat.lt_succ_of_lt (hInv.docIdLt b hb)
  | getChain ts1 ts2 => exact getChain_step_inv H J s hInv ts1 ts2
  | activate blockID ts => exact activate_step_inv s hInv blockID ts
  | vote blockID username isApproved t1 t2 t3 =>
    exact vote_step_inv H J s hInv blockID username isApproved t1 t2 t3

theorem reachable_inv (H : String → String) (J : List TxRecord → String)
    {s : Store} (h : Reachable H J s) : Inv s := by
  unfold Reachable at h
  induction h with
  | refl => exact inv_init
  | tail hsteps hstep ih => exact step_inv H J ih hstep

theorem findAndUpdate_some (p : Block → Bool) (f : Block → Block) :
    ∀ (l : List Block) (x : Block), (findAndUpdate p f l).1 = some x →
      ∃ c ∈ l, p c = true ∧ x = f c := by
  intro l
  induction l with
  | nil => intro x h; simp [findAndUpdate] at h
  | cons b rest ih =>
    intro x h
    unfold findAndUpdate at h
    by_cases hp : p b
    · rw [if_pos hp] at h
      dsimp only at h
      exact ⟨b, List.mem_cons_self _ _, hp, (Option.some.injEq _ _ ▸ h).symm⟩
    · rw [if_neg hp] at h
      dsimp only at h
      obtain ⟨c, hc, hpc, hx⟩ := ih x h
      exact ⟨c, List.mem_cons_of_mem _ hc, hpc, hx⟩

/-- C2: on the approve path, `appendToBlockchain` assigns the committed block
the sequence number of the highest existing `inChain` block plus one and that
block's hash as `previousHash`, with the stored hash recomputed over those
final values; consequently, in every reachable store every non-genesis
`inChain` block's `previousHash` equals the hash of the `inChain` block whose
sequence number is one less. -/
theorem claim_C2 (H : String → String) (J : List TxRecord → String) :
    (∀ (s : Store) (block : Block) (id : Nat) (tsApp tsHib : String) (top bfin : Block),
       maxByBlockId (inChainBlocks s) = some top →
       (appendToBlockchain H J s block id tsApp tsHib).2 = some bfin →
       bfin.blockId = top.blockId + 1 ∧ bfin.prevHash = top.hash ∧
       bfin.hash = computeBlockHash H J (top.blockId + 1) top.hash tsApp block.records ∧
       bfin.status = BStatus.inChain ∧
       (∀ c ∈ inChainBlocks s, c.blockId ≤ top.blockId)) ∧
    (∀ s, Reachable H J s → ∀ b ∈ inChainBlocks s, b.blockId ≠ 0 →
       ∃ c ∈ inChainBlocks s, c.blockId + 1 = b.blockId ∧ b.prevHash = c.hash) := by
  constructor
  · intro s block id tsApp tsHib top bfin htop hres
    unfold appendToBlockchain at hres
    rw [htop] at hres
    dsimp only at hres
    obtain ⟨c, hcmem, hpc, hx⟩ := findAndUpdate_some _ _ s.blocks bfin hres
    subst hx
    exact ⟨rfl, rfl, rfl, rfl, maxByBlockId_ge _ _ htop⟩
  · intro s hreach b hbmem hb0
    have hInv := reachable_inv H J hreach
    have hids := hInv.chainIds
    have hblt : b.blockId ∈ List.range (inChainBlocks s).length := by
      rw [← hids]
      exact List.mem_map_of_mem _ hbmem
    rw [List.mem_range] at hblt
    have hprev : b.blockId - 1 ∈ List.range (inChainBlocks s).length := by
      rw [List.mem_range]
      omega
    rw [← hids, List.mem_map] at hprev
    obtain ⟨c, hcmem, hcid⟩ := hprev
    refine ⟨c, hcmem, by omega, ?_⟩
    exact hInv.linked b hbmem (b.blockId - 1) (by omega) c hcmem hcid

theorem createHibernateBlock_transactions (s : Store) (ts : String) :
    (createHibernateBlock s ts).transactions = s.transactions := by
  unfold createHibernateBlock
  cases s.approvedPool with
  | nil => rfl
  | cons d0 rest =>
    cases rest with
    | nil => rfl
    | cons d1 rest2 => rfl

theorem createHibernateBlock_supplies (s : Store) (ts : String) :
    (createHibernateBlock s ts).supplies = s.supplies := by
  unfold createHibernateBlock
  cases s.approvedPool with
  | nil => rfl
  | cons d0 rest =>
    cases rest with
    | nil => rfl
    | cons d1 rest2 => rfl

theorem createHibernateBlock_blocks_mono (s : Store) (ts : String) :
    ∀ x ∈ s.blocks, x ∈ (createHibernateBlock s ts).blocks := by
  unfold createHibernateBlock
  cases s.approvedPool with
  | nil => intro x hx; exact List.mem_append_left _ hx
  | cons d0 rest =>
    cases rest with
    | nil => intro x hx; exact hx
    | cons d1 rest2 => intro x hx; exact List.mem_append_left _ hx

theorem voteAdd_approvedBy_length (d : Block) (u : String) (i : Bool)
    (hnA : u ∉ d.approvedBy) :
    (voteAdd d u i).approvedBy.length =
      if i then d.approvedBy.length + 1 else d.approvedBy.length := by
  rw [voteAdd_approvedBy d u i hnA]
  cases i <;> simp

theorem voteAdd_rejectedBy_length (d : Block) (u : String) (i : Bool)
    (hnR : u ∉ d.rejectedBy) :
    (voteAdd d u i).rejectedBy.length =
      if i then d.rejectedBy.length else d.rejectedBy.length + 1 := by
  rw [voteAdd_rejectedBy d u i hnR]
  cases i <;> simp

/-- C7: from a store with no `inChain` blocks (and an empty waiting pool, the
fresh-deployment situation), the first `getBlockchain` call creates the
genesis block — sequence number 0, empty `previousHash`, empty batch, status
`inChain`, hash computed over those values — plus a Hibernating staging
block, and `validateBlocks` accepts the resulting single-genesis chain. -/
theorem claim_C7 (H : String → String) (J : List TxRecord → String)
    (s : Store) (ts1 ts2 : String)
    (hchain : inChainBlocks s = []) (hpool : s.approvedPool = []) :
    ∃ g hb, getBlockchain H J s ts1 ts2 =
      ({ s with blocks := (s.blocks ++ [g]) ++ [hb], nextId := s.nextId + 2 }, [g]) ∧
      g.blockId = 0 ∧ g.prevHash = "" ∧ g.records = [] ∧ g.status = BStatus.inChain ∧
      g.hash = computeBlockHash H J 0 "" ts1 [] ∧
      hb.status = BStatus.hibernating ∧ hb.records = [] ∧
      inChainBlocks (getBlockchain H J s ts1 ts2).1 = [g] ∧
      validateBlocks H J (inChainBlocks (getBlockchain H J s ts1 ts2).1) = true := by
  have hgb : getBlockchain H J s ts1 ts2 =
      ({ s with
        blocks := (s.blocks ++
          [{ docId := s.nextId, blockId := 0, prevHash := "",
             hash := computeBlockHash H J 0 "" ts1 [], timestamp := ts1,
             status := BStatus.inChain, records := [], approvedBy := [], rejectedBy := [] }]) ++
          [hibBlock (s.nextId + 1) [] ts2]
        nextId := s.nextId + 2 },
       [{ docId := s.nextId, blockId := 0, prevHash := "",
          hash := computeBlockHash H J 0 "" ts1 [], timestamp := ts1,
          status := BStatus.inChain, records := [], approvedBy := [], rejectedBy := [] }]) := by
    unfold getBlockchain
    rw [if_pos (by rw [hchain]; rfl)]
    unfold createGenesisBlock
    dsimp only
    unfold createHibernateBlock
    dsimp only
    rw [hpool]
  refine ⟨_, _, hgb, rfl, rfl, rfl, rfl, rfl, rfl, rfl, ?_, ?_⟩
  · rw [hgb]
    show ((s.blocks ++ [_]) ++ [_]).filter _ = _
    rw [List.filter_append, List.filter_append]
    have h1 : s.blocks.filter (fun b => decide (b.status = BStatus.inChain)) = [] := hchain
    rw [h1]
    rfl
  · rw [hgb]
    show validateBlocks H J (((s.blocks ++ [_]) ++ [_]).filter _) = true
    rw [List.filter_append, List.filter_append]
    have h1 : s.blocks.filter (fun b => decide (b.status = BStatus.inChain)) = [] := hchain
    rw [h1]
    show validateBlocks H J [_] = true
    unfold validateBlocks
    dsimp only
    rw [if_neg (by simp), if_neg (by simp), if_neg (by simp [validateBlockRecords])]
    rfl

theorem claim_C7_witness :
    ∃ g hb, getBlockchain hashId serJ initStore "t1" "t2" =
      ({ initStore with
         blocks := (initStore.blocks ++ [g]) ++ [hb]
         nextId := initStore.nextId + 2 }, [g]) ∧
      g.blockId = 0 ∧ g.prevHash = "" ∧ g.records = [] ∧ g.status = BStatus.inChain ∧
      g.hash = computeBlockHash hashId serJ 0 "" "t1" [] ∧
      hb.status = BStatus.hibernating ∧ hb.records = [] ∧
      inChainBlocks (getBlockchain hashId serJ initStore "t1" "t2").1 = [g] ∧
      validateBlocks hashId serJ (inChainBlocks (getBlockchain hashId serJ initStore "t1" "t2").1) = true :=
  claim_C7 hashId serJ initStore "t1" "t2" (by decide) (by decide)

/-- C1: an accepted vote on a Pending block is evaluated against the
thresholds recomputed with denominator the number of currently registered
users with role Validator (`countValidators`, not the number of votes cast):
approve fraction at or above the threshold commits the block (final status
`inChain`), otherwise reject fraction at or above the threshold rejects it,
otherwise the block stays Pending and the only change to the store is the
recorded vote. -/
theorem claim_C1 (H : String → String) (J : List TxRecord → String)
    (s : Store) (hreach : Reachable H J s)
    (blockID : Nat) (username : String) (isApproved : Bool) (tsRej tsApp tsHib : String)
    (d : Block) (hmem : d ∈ s.blocks) (hid : d.docId = blockID)
    (hstat : d.status = BStatus.pending)
    (hnA : username ∉ d.approvedBy) (hnR : username ∉ d.rejectedBy) :
    (pctGe (if isApproved then d.approvedBy.length + 1 else d.approvedBy.length)
        (countValidators s) = true →
      ∃ bfin, (approveBlock H J s blockID username isApproved tsRej tsApp tsHib).2 =
          Except.ok (some bfin) ∧ bfin.docId = d.docId ∧ bfin.status = BStatus.inChain) ∧
    (pctGe (if isApproved then d.approvedBy.length + 1 else d.approvedBy.length)
        (countValidators s) = false →
     pctGe (if isApproved then d.rejectedBy.length else d.rejectedBy.length + 1)
        (countValidators s) = true →
      ∃ bfin, (approveBlock H J s blockID username isApproved tsRej tsApp tsHib).2 =
          Except.ok (some bfin) ∧ bfin.docId = d.docId ∧ bfin.status = BStatus.rejected) ∧
    (pctGe (if isApproved then d.approvedBy.length + 1 else d.approvedBy.length)
        (countValidators s) = false →
     pctGe (if isApproved then d.rejectedBy.length else d.rejectedBy.length + 1)
        (countValidators s) = false →
      ∃ pre post, s.blocks = pre ++ d :: post ∧
        approveBlock H J s blockID username isApproved tsRej tsApp tsHib =
          ({ s with blocks := pre ++ voteAdd d username isApproved :: post },
           Except.ok (some (voteAdd d username isApproved))) ∧
        (voteAdd d username isApproved).status = BStatus.pending) := by
  have hInv := reachable_inv H J hreach
  obtain ⟨pre, post, top, hdec, hpre, hpost, hprestag, hpoststag, hpostchain, hchain,
    htop, hk⟩ := vote_context s hInv d hmem hstat
  have hpreID : ∀ x ∈ pre, x.docId ≠ blockID := fun x hx => by
    rw [← hid]
    exact hpre x hx
  have hpostID : ∀ x ∈ post, x.docId ≠ blockID := fun x hx => by
    rw [← hid]
    exact hpost x hx
  have hsucc := approveBlock_success H J s blockID username isApproved tsRej tsApp tsHib
    pre post d hdec hid hpreID hpostID hstat hnA hnR
  have hd1stat : (voteAdd d username isApproved).status = BStatus.pending := by
    rw [voteAdd_status]
    exact hstat
  have hd1id : (voteAdd d username isApproved).docId = blockID := by
    rw [voteAdd_docId]
    exact hid
  have hlen : (voteAdd d username isApproved).records.length = MAX_RECORD := by
    rw [voteAdd_records]
    exact hInv.pendingLen d hmem hstat
  have hs1b : ({ s with blocks := pre ++ voteAdd d username isApproved :: post } : Store).blocks
      = pre ++ voteAdd d username isApproved :: post := rfl
  have hcount : countValidators { s with blocks := pre ++ voteAdd d username isApproved :: post }
      = countValidators s := rfl
  have hAeq : (voteAdd d username isApproved).approvedBy.length =
      if isApproved then d.approvedBy.length + 1 else d.approvedBy.length :=
    voteAdd_approvedBy_length d username isApproved hnA
  have hReq : (voteAdd d username isApproved).rejectedBy.length =
      if isApproved then d.rejectedBy.length else d.rejectedBy.length + 1 :=
    voteAdd_rejectedBy_length d username isApproved hnR
  refine ⟨?_, ?_, ?_⟩
  · intro hA
    have hA2 : pctGe (voteAdd d username isApproved).approvedBy.length
        (countValidators { s with blocks := pre ++ voteAdd d username isApproved :: post }) = true := by
      rw [hcount, hAeq]
      exact hA
    rw [hsucc]
    rw [blockConsensus_commit H J _ _ blockID tsRej tsApp tsHib pre post top hs1b hd1id
      hpreID hd1stat (le_of_eq hlen.symm) htop hA2]
    exact ⟨commitBlockF H J (voteAdd d username isApproved) top tsApp, rfl,
      voteAdd_docId d username isApproved, rfl⟩
  · intro hA hR
    have hA2 : pctGe (voteAdd d username isApproved).approvedBy.length
        (countValidators { s with blocks := pre ++ voteAdd d username isApproved :: post }) = false := by
      rw [hcount, hAeq]
      exact hA
    have hR2 : pctGe (voteAdd d username isApproved).rejectedBy.length
        (countValidators { s with blocks := pre ++ voteAdd d username isApproved :: post }) = true := by
      rw [hcount, hReq]
      exact hR
    rw [hsucc]
    rw [blockConsensus_reject H J _ _ blockID tsRej tsApp tsHib pre post hs1b hd1id
      hpreID hd1stat (le_of_eq hlen.symm) hA2 hR2]
    exact ⟨rejectBlockF (voteAdd d username isApproved) tsRej, rfl,
      voteAdd_docId d username isApproved, rfl⟩
  · intro hA hR
    have hA2 : pctGe (voteAdd d username isApproved).approvedBy.length
        (countValidators { s with blocks := pre ++ voteAdd d username isApproved :: post }) = false := by
      rw [hcount, hAeq]
      exact hA
    have hR2 : pctGe (voteAdd d username isApproved).rejectedBy.length
        (countValidators { s with blocks := pre ++ voteAdd d username isApproved :: post }) = false := by
      rw [hcount, hReq]
      exact hR
    rw [hsucc]
    rw [blockConsensus_nothing H J _ _ blockID tsRej tsApp tsHib hd1stat hA2 hR2]
    exact ⟨pre, post, hdec, rfl, hd1stat⟩

/-! ### A concrete reachable store with a Pending block carrying one vote -/

/-- A concrete validator. -/
def uv1 : User := { username := "v1", role := "Validator" }

/-- A concrete validator. -/
def uv2 : User := { username := "v2", role := "Validator" }

/-- A concrete validator. -/
def uv3 : User := { username := "v3", role := "Validator" }

/-- A concrete approved record waiting in the pool. -/
def wrA : TxRecord := { recordId := 10, payload := "a", amount := none, status := RecStatus.approved }

/-- A concrete approved record with a numeric amount. -/
def wrB : TxRecord :=
  { recordId := 11, payload := "b", amount := some (JsVal.num 3), status := RecStatus.approved }

/-- The trace: register three validators. -/
def sWa : Store := { initStore with users := initStore.users ++ [uv1] }

def sWb : Store := { sWa with users := sWa.users ++ [uv2] }

def sWc : Store := { sWb with users := sWb.users ++ [uv3] }

/-- Add two approved records to the pool. -/
def sWd : Store :=
  { sWc with
    approvedPool := sWc.approvedPool ++ [{ docId := sWc.nextId, records := wrA }]
    nextId := sWc.nextId + 1 }

def sWe : Store :=
  { sWd with
    approvedPool := sWd.approvedPool ++ [{ docId := sWd.nextId, records := wrB }]
    nextId := sWd.nextId + 1 }

/-- Bootstrap genesis plus the staging block. -/
def sWf : Store := (getBlockchain hashId serJ sWe "g1" "g2").1

/-- Activate the staging block (docId 3). -/
def sWg : Store := (activateBlock sWf 3 "ta").1

/-- One approve vote that does not cross the threshold (1 of 3). -/
def sW : Store := (approveBlock hashId serJ sWg 3 "v1" true "r1" "p1" "h1").1

theorem sWg_reachable : Reachable hashId serJ sWg :=
  Relation.ReflTransGen.tail
    (Relation.ReflTransGen.tail
      (Relation.ReflTransGen.tail
        (Relation.ReflTransGen.tail
          (Relation.ReflTransGen.tail
            (Relation.ReflTransGen.tail
              (Relation.ReflTransGen.tail Relation.ReflTransGen.refl
                (Step.register initStore uv1))
              (Step.register sWa uv2))
            (Step.register sWb uv3))
          (Step.addApproved sWc wrA))
        (Step.addApproved sWd wrB))
      (Step.getChain sWe "g1" "g2"))
    (Step.activate sWf 3 "ta")

theorem sW_reachable : Reachable hashId serJ sW :=
  Relation.ReflTransGen.tail sWg_reachable (Step.vote sWg 3 "v1" true "r1" "p1" "h1")

/-- The Pending block of `sW`, carrying one approve vote. -/
def dW : Block :=
  { docId := 3, blockId := 0, prevHash := "", hash := "", timestamp := "ta",
    status := BStatus.pending, records := [wrA, wrB], approvedBy := ["v1"], rejectedBy := [] }

theorem claim_C1_witness :
    ∃ bfin, (approveBlock hashId serJ sW 3 "v2" true "r2" "p2" "h2").2 =
      Except.ok (some bfin) ∧ bfin.docId = dW.docId ∧ bfin.status = BStatus.inChain :=
  (claim_C1 hashId serJ sW sW_reachable 3 "v2" true "r2" "p2" "h2" dW (by decide) (by decide)
    (by decide) (by decide) (by decide)).1 (by decide)

/-- A block sitting in the transient Approved status, used to exercise
`appendToBlockchain` directly. -/
def wApproved : Block :=
  { docId := 1, blockId := 0, prevHash := "", hash := "", timestamp := "t",
    status := BStatus.approved, records := [], approvedBy := [], rejectedBy := [] }

/-- A store holding the genesis block and an Approved block. -/
def sArt : Store :=
  { blocks := [wGenesis, wApproved], transactions := [], supplies := [],
    approvedPool := [], users := [], nextId := 2 }

/-- The committed form of `wApproved` in `sArt`. -/
def wCommitted : Block :=
  { docId := 1, blockId := 1
    prevHash := wGenesis.hash
    hash := computeBlockHash hashId serJ 1 wGenesis.hash "tp" []
    timestamp := "tp", status := BStatus.inChain, records := [], approvedBy := [], rejectedBy := [] }

theorem claim_C2_witness :
    (wCommitted.blockId = wGenesis.blockId + 1 ∧ wCommitted.prevHash = wGenesis.hash ∧
     wCommitted.hash =
       computeBlockHash hashId serJ (wGenesis.blockId + 1) wGenesis.hash "tp" wApproved.records ∧
     wCommitted.status = BStatus.inChain ∧
     (∀ c ∈ inChainBlocks sArt, c.blockId ≤ wGenesis.blockId)) ∧
    (∀ b ∈ inChainBlocks sW, b.blockId ≠ 0 →
      ∃ c ∈ inChainBlocks sW, c.blockId + 1 = b.blockId ∧ b.prevHash = c.hash) :=
  ⟨(claim_C2 hashId serJ).1 sArt wApproved 1 "tp" "th" wGenesis wCommitted (by decide) (by decide),
   (claim_C2 hashId serJ).2 sW sW_reachable⟩

/-- C9: when a vote crosses the approve (resp. reject) threshold, record
propagation rewrites both the Transaction and the SupplyChain collections
with `updateMany({status:"inBlock"}, ...)` — the resulting stores hold
exactly `updateManyInBlock` of the old collections — and `updateManyInBlock`
is keyed only on the status value: elementwise, a record with status
`inBlock` flips to the target status and every record with any other status
is returned unchanged, with no reference to the transitioning block's
batch. -/
theorem claim_C9 (H : String → String) (J : List TxRecord → String)
    (s : Store) (hreach : Reachable H J s)
    (blockID : Nat) (username : String) (isApproved : Bool) (tsRej tsApp tsHib : String)
    (d : Block) (hmem : d ∈ s.blocks) (hid : d.docId = blockID)
    (hstat : d.status = BStatus.pending)
    (hnA : username ∉ d.approvedBy) (hnR : username ∉ d.rejectedBy) :
    (pctGe (if isApproved then d.approvedBy.length + 1 else d.approvedBy.length)
        (countValidators s) = true →
      (approveBlock H J s blockID username isApproved tsRej tsApp tsHib).1.transactions =
        updateManyInBlock RecStatus.inChain s.transactions ∧
      (approveBlock H J s blockID username isApproved tsRej tsApp tsHib).1.supplies =
        updateManyInBlock RecStatus.inChain s.supplies) ∧
    (pctGe (if isApproved then d.approvedBy.length + 1 else d.approvedBy.length)
        (countValidators s) = false →
     pctGe (if isApproved then d.rejectedBy.length else d.rejectedBy.length + 1)
        (countValidators s) = true →
      (approveBlock H J s blockID username isApproved tsRej tsApp tsHib).1.transactions =
        updateManyInBlock RecStatus.rejected s.transactions ∧
      (approveBlock H J s blockID username isApproved tsRej tsApp tsHib).1.supplies =
        updateManyInBlock RecStatus.rejected s.supplies) ∧
    (∀ (st : RecStatus) (l : List TxRecord),
      (updateManyInBlock st l).length = l.length ∧
      ∀ i (hi : i < l.length) (hi2 : i < (updateManyInBlock st l).length),
        (updateManyInBlock st l)[i] =
          if l[i].status = RecStatus.inBlock then { l[i] with status := st } else l[i]) := by
  have hInv := reachable_inv H J hreach
  obtain ⟨pre, post, top, hdec, hpre, hpost, hprestag, hpoststag, hpostchain, hchain,
    htop, hk⟩ := vote_context s hInv d hmem hstat
  have hpreID : ∀ x ∈ pre, x.docId ≠ blockID := fun x hx => by
    rw [← hid]
    exact hpre x hx
  have hpostID : ∀ x ∈ post, x.docId ≠ blockID := fun x hx => by
    rw [← hid]
    exact hpost x hx
  have hsucc := approveBlock_success H J s blockID username isApproved tsRej tsApp tsHib
    pre post d hdec hid hpreID hpostID hstat hnA hnR
  have hd1stat : (voteAdd d username isApproved).status = BStatus.pending := by
    rw [voteAdd_status]
    exact hstat
  have hd1id : (voteAdd d username isApproved).docId = blockID := by
    rw [voteAdd_docId]
    exact hid
  have hlen : (voteAdd d username isApproved).records.length = MAX_RECORD := by
    rw [voteAdd_records]
    exact hInv.pendingLen d hmem hstat
  have hs1b : ({ s with blocks := pre ++ voteAdd d username isApproved :: post } : Store).blocks
      = pre ++ voteAdd d username isApproved :: post := rfl
  have hAeq : (voteAdd d username isApproved).approvedBy.length =
      if isApproved then d.approvedBy.length + 1 else d.approvedBy.length :=
    voteAdd_approvedBy_length d username isApproved hnA
  have hReq : (voteAdd d username isApproved).rejectedBy.length =
      if isApproved then d.rejectedBy.length else d.rejectedBy.length + 1 :=
    voteAdd_rejectedBy_length d username isApproved hnR
  refine ⟨?_, ?_, ?_⟩
  · intro hA
    have hA2 : pctGe (voteAdd d username isApproved).approvedBy.length
        (countValidators { s with blocks := pre ++ voteAdd d username isApproved :: post }) = true := by
      rw [show countValidators { s with blocks := pre ++ voteAdd d username isApproved :: post }
        = countValidators s from rfl, hAeq]
      exact hA
    rw [hsucc]
    rw [blockConsensus_commit H J _ _ blockID tsRej tsApp tsHib pre post top hs1b hd1id
      hpreID hd1stat (le_of_eq hlen.symm) htop hA2]
    dsimp only
    rw [createHibernateBlock_transactions, createHibernateBlock_supplies]
    exact ⟨rfl, rfl⟩
  · intro hA hR
    have hA2 : pctGe (voteAdd d username isApproved).approvedBy.length
        (countValidators { s with blocks := pre ++ voteAdd d username isApproved :: post }) = false := by
      rw [show countValidators { s with blocks := pre ++ voteAdd d username isApproved :: post }
        = countValidators s from rfl, hAeq]
      exact hA
    have hR2 : pctGe (voteAdd d username isApproved).rejectedBy.length
        (countValidators { s with blocks := pre ++ voteAdd d username isApproved :: post }) = true := by
      rw [show countValidators { s with blocks := pre ++ voteAdd d username isApproved :: post }
        = countValidators s from rfl, hReq]
      exact hR
    rw [hsucc]
    rw [blockConsensus_reject H J _ _ blockID tsRej tsApp tsHib pre post hs1b hd1id
      hpreID hd1stat (le_of_eq hlen.symm) hA2 hR2]
    dsimp only
    rw [createHibernateBlock_transactions, createHibernateBlock_supplies]
    exact ⟨rfl, rfl⟩
  · intro st l
    refine ⟨by simp [updateManyInBlock], ?_⟩
    intro i hi hi2
    show (l.map _)[i] = _
    rw [List.getElem_map]

/-- A Transaction-store record with status `inBlock`. -/
def wrT : TxRecord :=
  { recordId := 20, payload := "t", amount := none, status := RecStatus.inBlock }

/-- The witness store extended with an `inBlock` transaction. -/
def sWt : Store := { sW with transactions := sW.transactions ++ [wrT] }

theorem sWt_reachable : Reachable hashId serJ sWt :=
  Relation.ReflTransGen.tail sW_reachable (Step.addTransaction sW wrT)

theorem claim_C9_witness :
    (approveBlock hashId serJ sWt 3 "v2" true "r2" "p2" "h2").1.transactions =
      updateManyInBlock RecStatus.inChain sWt.transactions ∧
    (approveBlock hashId serJ sWt 3 "v2" true "r2" "p2" "h2").1.supplies =
      updateManyInBlock RecStatus.inChain sWt.supplies :=
  (claim_C9 hashId serJ sWt sWt_reachable 3 "v2" true "r2" "p2" "h2" dW (by decide) (by decide)
    (by decide) (by decide) (by decide)).1 (by decide)

theorem addToSet_subset (l : List String) (u : String) : l ⊆ addToSet l u := by
  unfold addToSet
  split_ifs
  · exact List.Subset.refl _
  · exact List.subset_append_left _ _

theorem voteAdd_approvedBy_superset (d : Block) (u : String) (i : Bool) :
    d.approvedBy ⊆ (voteAdd d u i).approvedBy := by
  unfold voteAdd
  split_ifs
  · exact addToSet_subset _ _
  · exact List.Subset.refl _

theorem voteAdd_rejectedBy_superset (d : Block) (u : String) (i : Bool) :
    d.rejectedBy ⊆ (voteAdd d u i).rejectedBy := by
  unfold voteAdd
  split_ifs
  · exact List.Subset.refl _
  · exact addToSet_subset _ _

/-- Across any single step, every block's vote sets only grow (matching by
document id). -/
theorem step_votes_mono (H : String → String) (J : List TxRecord → String)
    {s s2 : Store} (hInv : Inv s) (hstep : Step H J s s2) :
    ∀ b ∈ s.blocks, ∃ b2 ∈ s2.blocks, b2.docId = b.docId ∧
      b.approvedBy ⊆ b2.approvedBy ∧ b.rejectedBy ⊆ b2.rejectedBy := by
  cases hstep with
  | register u =>
    intro b hb
    exact ⟨b, hb, rfl, List.Subset.refl _, List.Subset.refl _⟩
  | addTransaction r =>
    intro b hb
    exact ⟨b, hb, rfl, List.Subset.refl _, List.Subset.refl _⟩
  | addSupply r =>
    intro b hb
    exact ⟨b, hb, rfl, List.Subset.refl _, List.Subset.refl _⟩
  | addApproved r =>
    intro b hb
    exact ⟨b, hb, rfl, List.Subset.refl _, List.Subset.refl _⟩
  | getChain ts1 ts2 =>
    intro b hb
    unfold getBlockchain
    by_cases hc : (inChainBlocks s).length = 0
    · rw [hInv.chainEmpty (List.length_eq_zero.1 hc)] at hb
      exact absurd hb (List.not_mem_nil b)
    · rw [if_neg hc]
      exact ⟨b, hb, rfl, List.Subset.refl _, List.Subset.refl _⟩
  | activate blockID ts =>
    intro b hb
    unfold activateBlock
    cases hf : s.blocks.find? (fun c =>
        decide (c.docId = blockID ∧ c.status = BStatus.hibernating)) with
    | none => exact ⟨b, hb, rfl, List.Subset.refl _, List.Subset.refl _⟩
    | some c =>
      dsimp only
      have hcmem := List.mem_of_find?_eq_some hf
      have hprop := List.find?_some hf
      rw [decide_eq_true_eq] at hprop
      obtain ⟨hcid, hcstat⟩ := hprop
      by_cases hlen : c.records.length = MAX_RECORD
      · rw [if_pos hlen]
        obtain ⟨pre, post, hdec, hpre2, hpost2⟩ := decompose_by_docId s.blocks c hInv.docNodup hcmem
        rw [hdec, findAndUpdate_match (fun x => decide (x.docId = blockID))
          (fun x => { x with status := BStatus.pending, timestamp := ts }) pre c post
          (fun x hx => by
            simp only [decide_eq_false_iff_not]
            rw [← hcid]
            exact hpre2 x hx)
          (by simp only [decide_eq_true_eq]; exact hcid)]
        dsimp only
        rw [hdec] at hb
        rcases List.mem_append.1 hb with h1 | h2
        · exact ⟨b, List.mem_append_left _ h1, rfl, List.Subset.refl _, List.Subset.refl _⟩
        · rcases List.mem_cons.1 h2 with rfl | h3
          · exact ⟨{ b with status := BStatus.pending, timestamp := ts },
              List.mem_append_right _ (List.mem_cons_self _ _), rfl,
              List.Subset.refl _, List.Subset.refl _⟩
          · exact ⟨b, List.mem_append_right _ (List.mem_cons_of_mem _ h3), rfl,
              List.Subset.refl _, List.Subset.refl _⟩
      · rw [if_neg hlen]
        exact ⟨b, hb, rfl, List.Subset.refl _, List.Subset.refl _⟩
  | vote blockID username isApproved t1 t2 t3 =>
    intro b hb
    by_cases hex : ∃ dd ∈ s.blocks, dd.docId = blockID
    · obtain ⟨dd, hddmem, hddid⟩ := hex
      have huniq : ∀ x ∈ s.blocks, x.docId = blockID → x = dd := fun x hx hxid =>
        List.inj_on_of_nodup_map hInv.docNodup hx hddmem (by rw [hxid, hddid])
      by_cases hvoted : username ∈ dd.approvedBy ∨ username ∈ dd.rejectedBy
      · rw [approveBlock_dup H J s blockID username isApproved t1 t2 t3 dd hddmem hddid hvoted]
        exact ⟨b, hb, rfl, List.Subset.refl _, List.Subset.refl _⟩
      · push_neg at hvoted
        obtain ⟨hnA, hnR⟩ := hvoted
        by_cases hpend : dd.status = BStatus.pending
        · obtain ⟨pre, post, top, hdec, hpre, hpost, hprestag, hpoststag, hpostchain, hchain,
            htop, hk⟩ := vote_context s hInv dd hddmem hpend
          have hpreID : ∀ x ∈ pre, x.docId ≠ blockID := fun x hx => by
            rw [← hddid]
            exact hpre x hx
          have hpostID : ∀ x ∈ post, x.docId ≠ blockID := fun x hx => by
            rw [← hddid]
            exact hpost x hx
          rw [approveBlock_success H J s blockID username isApproved t1 t2 t3
            pre post dd hdec hddid hpreID hpostID hpend hnA hnR]
          dsimp only
          have hd1stat : (voteAdd dd username isApproved).status = BStatus.pending := by
            rw [voteAdd_status]
            exact hpend
          have hd1id : (voteAdd dd username isApproved).docId = blockID := by
            rw [voteAdd_docId]
            exact hddid
          have hlen : (voteAdd dd username isApproved).records.length = MAX_RECORD := by
            rw [voteAdd_records]
            exact hInv.pendingLen dd hddmem hpend
          have hs1b : ({ s with blocks := pre ++ voteAdd dd username isApproved :: post } : Store).blocks
              = pre ++ voteAdd dd username isApproved :: post := rfl
          rw [hdec] at hb
          by_cases hA : pctGe (voteAdd dd username isApproved).approvedBy.length
              (countValidators { s with blocks := pre ++ voteAdd dd username isApproved :: post }) = true
          · rw [blockConsensus_commit H J _ _ blockID t1 t2 t3 pre post top hs1b hd1id
              hpreID hd1stat (le_of_eq hlen.symm) htop hA]
            dsimp only
            rcases List.mem_append.1 hb with h1 | h2
            · exact ⟨b, createHibernateBlock_blocks_mono _ _ b (List.mem_append_left _ h1),
                rfl, List.Subset.refl _, List.Subset.refl _⟩
            · rcases List.mem_cons.1 h2 with rfl | h3
              · refine ⟨commitBlockF H J (voteAdd b username isApproved) top t2,
                  createHibernateBlock_blocks_mono _ _ _
                    (List.mem_append_right _ (List.mem_cons_self _ _)),
                  ?_, ?_, ?_⟩
                · show (voteAdd b username isApproved).docId = b.docId
                  exact voteAdd_docId b username isApproved
                · show b.approvedBy ⊆ (voteAdd b username isApproved).approvedBy
                  exact voteAdd_approvedBy_superset b username isApproved
                · show b.rejectedBy ⊆ (voteAdd b username isApproved).rejectedBy
                  exact voteAdd_rejectedBy_superset b username isApproved
              · exact ⟨b, createHibernateBlock_blocks_mono _ _ b
                  (List.mem_append_right _ (List.mem_cons_of_mem _ h3)),
                  rfl, List.Subset.refl _, List.Subset.refl _⟩
          · by_cases hR : pctGe (voteAdd dd username isApproved).rejectedBy.length
                (countValidators { s with blocks := pre ++ voteAdd dd username isApproved :: post }) = true
            · rw [blockConsensus_reject H J _ _ blockID t1 t2 t3 pre post hs1b hd1id
                hpreID hd1stat (le_of_eq hlen.symm) (Bool.eq_false_iff.mpr hA) hR]
              dsimp only
              rcases List.mem_append.1 hb with h1 | h2
              · exact ⟨b, createHibernateBlock_blocks_mono _ _ b (List.mem_append_left _ h1),
                  rfl, List.Subset.refl _, List.Subset.refl _⟩
              · rcases List.mem_cons.1 h2 with rfl | h3
                · refine ⟨rejectBlockF (voteAdd b username isApproved) t1,
                    createHibernateBlock_blocks_mono _ _ _
                      (List.mem_append_right _ (List.mem_cons_self _ _)),
                    ?_, ?_, ?_⟩
                  · show (voteAdd b username isApproved).docId = b.docId
                    exact voteAdd_docId b username isApproved
                  · show b.approvedBy ⊆ (voteAdd b username isApproved).approvedBy
                    exact voteAdd_approvedBy_superset b username isApproved
                  · show b.rejectedBy ⊆ (voteAdd b username isApproved).rejectedBy
                    exact voteAdd_rejectedBy_superset b username isApproved
                · exact ⟨b, createHibernateBlock_blocks_mono _ _ b
                    (List.mem_append_right _ (List.mem_cons_of_mem _ h3)),
                    rfl, List.Subset.refl _, List.Subset.refl _⟩
            · rw [blockConsensus_nothing H J _ _ blockID t1 t2 t3 hd1stat
                (Bool.eq_false_iff.mpr hA) (Bool.eq_false_iff.mpr hR)]
              rcases List.mem_append.1 hb with h1 | h2
              · exact ⟨b, List.mem_append_left _ h1, rfl, List.Subset.refl _, List.Subset.refl _⟩
              · rcases List.mem_cons.1 h2 with rfl | h3
                · exact ⟨voteAdd b username isApproved,
                    List.mem_append_right _ (List.mem_cons_self _ _),
                    voteAdd_docId b username isApproved,
                    voteAdd_approvedBy_superset b username isApproved,
                    voteAdd_rejectedBy_superset b username isApproved⟩
                · exact ⟨b, List.mem_append_right _ (List.mem_cons_of_mem _ h3), rfl,
                    List.Subset.refl _, List.Subset.refl _⟩
        · rw [approveBlock_noPending H J s blockID username isApproved t1 t2 t3
            (fun x hx hcon => by
              have hxd := huniq x hx hcon.1
              subst hxd
              rcases hcon.2 with hm | hm
              · exact hnA hm
              · exact hnR hm)
            (fun x hx hcon => by
              have hxd := huniq x hx hcon.1
              subst hxd
              exact hpend hcon.2)]
          exact ⟨b, hb, rfl, List.Subset.refl _, List.Subset.refl _⟩
    · push_neg at hex
      rw [approveBlock_noPending H J s blockID username isApproved t1 t2 t3
        (fun x hx hcon => hex x hx hcon.1)
        (fun x hx hcon => hex x hx hcon.1)]
      exact ⟨b, hb, rfl, List.Subset.refl _, List.Subset.refl _⟩

/-- C5: a vote by a caller who already appears in the target block's
`approvedBy` or `rejectedBy` fails with the BadRequest duplicate-vote error
and mutates nothing (the store is returned unchanged); in every reachable
store `approvedBy ++ rejectedBy` of every block is duplicate-free; and across
any step a block's recorded votes are never removed or changed — the vote
sets only grow. -/
theorem claim_C5 (H : String → String) (J : List TxRecord → String) :
    (∀ (s : Store) (blockID : Nat) (username : String) (isApproved : Bool)
       (tsRej tsApp tsHib : String) (d : Block), d ∈ s.blocks → d.docId = blockID →
       (username ∈ d.approvedBy ∨ username ∈ d.rejectedBy) →
       approveBlock H J s blockID username isApproved tsRej tsApp tsHib =
         (s, Except.error (ApiErr.badRequest "Already rejected or approved this block"))) ∧
    (∀ s, Reachable H J s → ∀ b ∈ s.blocks, (b.approvedBy ++ b.rejectedBy).Nodup) ∧
    (∀ s s2, Reachable H J s → Step H J s s2 →
      ∀ b ∈ s.blocks, ∀ b2 ∈ s2.blocks, b2.docId = b.docId →
        b.approvedBy ⊆ b2.approvedBy ∧ b.rejectedBy ⊆ b2.rejectedBy) := by
  refine ⟨?_, ?_, ?_⟩
  · intro s blockID username isApproved tsRej tsApp tsHib d hmem hid hv
    exact approveBlock_dup H J s blockID username isApproved tsRej tsApp tsHib d hmem hid hv
  · intro s hreach b hb
    exact (reachable_inv H J hreach).voteNodup b hb
  · intro s s2 hreach hstep b hb b2 hb2 hid
    have hInv := reachable_inv H J hreach
    have hInv2 := step_inv H J hInv hstep
    obtain ⟨bm, hbm, hbmid, hsubA, hsubR⟩ := step_votes_mono H J hInv hstep b hb
    have hbeq : b2 = bm :=
      List.inj_on_of_nodup_map hInv2.docNodup hb2 hbm (by rw [hid, hbmid])
    rw [hbeq]
    exact ⟨hsubA, hsubR⟩

theorem claim_C5_witness :
    approveBlock hashId serJ sW 3 "v1" false "r9" "p9" "h9" =
      (sW, Except.error (ApiErr.badRequest "Already rejected or approved this block")) ∧
    (∀ b ∈ sW.blocks, (b.approvedBy ++ b.rejectedBy).Nodup) ∧
    (∀ b ∈ sWg.blocks, ∀ b2 ∈ sW.blocks, b2.docId = b.docId →
      b.approvedBy ⊆ b2.approvedBy ∧ b.rejectedBy ⊆ b2.rejectedBy) :=
  ⟨(claim_C5 hashId serJ).1 sW 3 "v1" false "r9" "p9" "h9" dW (by decide) (by decide)
      (by decide),
   (claim_C5 hashId serJ).2.1 sW sW_reachable,
   (claim_C5 hashId serJ).2.2 sWg sW sWg_reachable
     (Step.vote sWg 3 "v1" true "r1" "p1" "h1")⟩

end BlockSpec
